import Mathlib

/-!
Verification of the document-rectification pipeline in
`src/lib/imageProcessing.ts` (Page_Scanner repository).

The pipeline is embedded shallowly: JavaScript `number` arithmetic is
modelled by an arbitrary linear ordered field `α` (instantiated at `ℚ`
for concrete evaluations), pixel buffers by functions `ℕ → α` (JS typed
arrays are zero-initialised, so unwritten cells read 0), and the
imperative write loops by left folds of pointwise updates, preserving
the source's iteration order.  `Math.sqrt`, `Math.atan2` and `Math.PI`
have no exact counterpart in an ordered field; they are passed as an
explicit record of opaque function parameters, and theorems that need a
fact about them (such as `sqrt 0 = 0`) take it as a hypothesis.
-/

set_option linter.unusedSectionVars false

namespace PageScanner

/-- Pointwise update of a buffer modelled as a function: `arr[i] = v`. -/
def updF {α : Type} (f : ℕ → α) (i : ℕ) (v : α) : ℕ → α :=
  fun j => if j = i then v else f j

@[simp] theorem updF_same {α : Type} (f : ℕ → α) (i : ℕ) (v : α) :
    updF f i v i = v := by
  simp [updF]

theorem updF_other {α : Type} (f : ℕ → α) {i j : ℕ} (v : α) (h : j ≠ i) :
    updF f i v j = f j := by
  simp [updF, h]

/-- A write loop whose written value does not depend on the accumulator:
for every item `p` of the list, `arr[k p] = v p`.  This is the shape of
the fresh-output-buffer loops in the source (`gaussianBlur`,
`sobelEdgeDetection`, `nonMaxSuppression`, the threshold pass, and the
perspective resampler). -/
def writeLoop {α β : Type} (l : List β) (k : β → ℕ) (v : β → α) (f0 : ℕ → α) : ℕ → α :=
  l.foldl (fun g p => updF g (k p) (v p)) f0

theorem writeLoop_not_mem {α β : Type} (l : List β) (k : β → ℕ) (v : β → α)
    (f0 : ℕ → α) (j : ℕ) (h : ∀ p ∈ l, k p ≠ j) :
    writeLoop l k v f0 j = f0 j := by
  induction l generalizing f0 with
  | nil => rfl
  | cons a t ih =>
    have ha : k a ≠ j := h a (List.mem_cons_self a t)
    have ht : ∀ p ∈ t, k p ≠ j := fun p hp => h p (List.mem_cons_of_mem a hp)
    simp only [writeLoop, List.foldl_cons] at *
    rw [ih _ ht, updF_other _ _ (fun hj => ha hj.symm)]

theorem writeLoop_mem {α β : Type} (l : List β) (k : β → ℕ) (v : β → α)
    (f0 : ℕ → α) (j : ℕ) (w : α) (hex : ∃ p ∈ l, k p = j)
    (hval : ∀ q ∈ l, k q = j → v q = w) :
    writeLoop l k v f0 j = w := by
  induction l generalizing f0 with
  | nil => simp at hex
  | cons a t ih =>
    simp only [writeLoop, List.foldl_cons]
    by_cases hmem : ∃ q ∈ t, k q = j
    · exact ih _ hmem (fun q hq hk => hval q (List.mem_cons_of_mem a hq) hk)
    · push_neg at hmem
      have hka : k a = j := by
        rcases hex with ⟨p, hp, hkp⟩
        rcases List.mem_cons.mp hp with h | h
        · exact h ▸ hkp
        · exact absurd hkp (hmem p h)
      have hstep : writeLoop t k v (updF f0 (k a) (v a)) j = updF f0 (k a) (v a) j :=
        writeLoop_not_mem t k v _ _ hmem
      rw [writeLoop] at hstep
      rw [hstep, hka, updF_same]
      exact hval a (List.mem_cons_self a t) hka

section Model

variable {α : Type} [LinearOrderedField α] [FloorRing α]

/-- A 2-D point, `interface Point { x: number; y: number }`. -/
structure Pt (α : Type) where
  x : α
  y : α
deriving DecidableEq

/-- An RGBA raster (`ImageData`): `data` is the row-major channel buffer
of length `4 * width * height`, modelled as a total function (typed
arrays read 0 outside the written range). -/
structure ImgData (α : Type) where
  width : ℕ
  height : ℕ
  data : ℕ → α

/-- Opaque parameters standing for `Math.sqrt`, `Math.atan2` and
`Math.PI`, which have no exact model in an ordered field. -/
structure JsMath (α : Type) where
  sqrt : α → α
  atan2 : α → α → α
  pi : α

/-- `Math.round`: round half toward positive infinity. -/
def jsRound (x : α) : ℤ := ⌊x + 1 / 2⌋

/-- Semantics of storing a JS number into a `Uint8ClampedArray` cell:
clamp to `[0, 255]`, rounding halves to the nearest even integer. -/
def u8Store (x : α) : α :=
  if x ≤ 0 then 0
  else if 255 ≤ x then 255
  else
    let f : ℤ := ⌊x⌋
    let r : α := x - f
    if r < 1 / 2 then (f : α)
    else if 1 / 2 < r then ((f + 1 : ℤ) : α)
    else if Even f then (f : α) else ((f + 1 : ℤ) : α)

theorem u8Store_intCast (n : ℕ) (hn : n ≤ 255) : u8Store ((n : α)) = n := by
  unfold u8Store
  rcases Nat.eq_zero_or_pos n with h0 | h0
  · subst h0; simp
  · have h1 : ¬ ((n : α) ≤ 0) := by
      push_neg
      exact_mod_cast h0
    rw [if_neg h1]
    by_cases h255 : 255 ≤ (n : α)
    · rw [if_pos h255]
      have : (255 : α) ≤ n := h255
      have : (255 : ℕ) ≤ n := by exact_mod_cast this
      have : n = 255 := le_antisymm hn this
      simp [this]
    · rw [if_neg h255]
      have hf : ⌊(n : α)⌋ = (n : ℤ) := by
        simp
      simp only [hf]
      have : (n : α) - ((n : ℤ) : α) = 0 := by push_cast; ring
      rw [this]
      norm_num

theorem u8Store_zero : u8Store (0 : α) = 0 := by
  have := u8Store_intCast (α := α) 0 (by norm_num)
  simpa using this

/-- Interior pixel coordinates `(x, y)` in source iteration order
(`for y in [1, h-1) { for x in [1, w-1) }`). -/
def interiorCoords (w h : ℕ) : List (ℕ × ℕ) :=
  (List.range (h - 2)).flatMap fun yy => (List.range (w - 2)).map fun xx => (xx + 1, yy + 1)

theorem mem_interiorCoords {w h : ℕ} {p : ℕ × ℕ} :
    p ∈ interiorCoords w h ↔
      1 ≤ p.1 ∧ p.1 ≤ w - 2 ∧ 1 ≤ p.2 ∧ p.2 ≤ h - 2 ∧ 2 < w ∧ 2 < h := by
  constructor
  · intro hp
    simp only [interiorCoords, List.mem_flatMap, List.mem_map, List.mem_range] at hp
    rcases hp with ⟨yy, hyy, xx, hxx, rfl⟩
    have hw : 2 < w := by omega
    have hh : 2 < h := by omega
    simp only
    omega
  · intro ⟨h1, h2, h3, h4, h5, h6⟩
    simp only [interiorCoords, List.mem_flatMap, List.mem_map, List.mem_range]
    exact ⟨p.2 - 1, by omega, p.1 - 1, by omega, by
      cases p with
      | mk a b => simp only [Prod.mk.injEq]; omega⟩

/-- Linear index of coordinates, `idx = y * width + x`. -/
def lix (w : ℕ) (p : ℕ × ℕ) : ℕ := p.2 * w + p.1

theorem lix_inj {w : ℕ} {p q : ℕ × ℕ} (hp : p.1 < w) (hq : q.1 < w)
    (h : lix w p = lix w q) : p = q := by
  unfold lix at h
  have h2 : p.2 = q.2 := by
    rcases Nat.lt_trichotomy p.2 q.2 with hlt | heq | hgt
    · have hmul : (p.2 + 1) * w ≤ q.2 * w := Nat.mul_le_mul_right w hlt
      rw [Nat.add_mul, Nat.one_mul] at hmul
      omega
    · exact heq
    · have hmul : (q.2 + 1) * w ≤ p.2 * w := Nat.mul_le_mul_right w hgt
      rw [Nat.add_mul, Nat.one_mul] at hmul
      omega
  have h1 : p.1 = q.1 := by
    rw [h2] at h
    omega
  cases p; cases q
  simp_all

/-- Stage 1, `toGrayscale`: per pixel `j` (the source iterates `i` over
the RGBA buffer in steps of 4 and writes cell `i / 4`),
`gray[j] = Math.round(0.299 r + 0.587 g + 0.114 b)` stored into a fresh
`Uint8ClampedArray`. -/
def toGrayscale (img : ImgData α) : ℕ → α :=
  writeLoop (List.range (img.width * img.height)) (fun j => j)
    (fun j => u8Store ((jsRound (299 / 1000 * img.data (4 * j) +
      587 / 1000 * img.data (4 * j + 1) + 114 / 1000 * img.data (4 * j + 2)) : ℤ) : α))
    (fun _ => 0)

/-- The 3×3 kernel `[[1,2,1],[2,4,2],[1,2,1]]` accumulated at interior
pixel `p = (x, y)` (terms listed in the source's `ky, kx` order; field
addition is associative and commutative, so the grouping is immaterial). -/
def blurSum (data : ℕ → α) (w : ℕ) (p : ℕ × ℕ) : α :=
  data ((p.2 - 1) * w + (p.1 - 1)) * 1 + data ((p.2 - 1) * w + p.1) * 2 +
    data ((p.2 - 1) * w + (p.1 + 1)) * 1 +
  data (p.2 * w + (p.1 - 1)) * 2 + data (p.2 * w + p.1) * 4 +
    data (p.2 * w + (p.1 + 1)) * 2 +
  data ((p.2 + 1) * w + (p.1 - 1)) * 1 + data ((p.2 + 1) * w + p.1) * 2 +
    data ((p.2 + 1) * w + (p.1 + 1)) * 1

/-- Stage 2, `gaussianBlur`: convolve interior pixels with the kernel,
normalised by 16, into a fresh zero-initialised buffer; the loops only
cover `1 ≤ x ≤ w-2`, `1 ≤ y ≤ h-2`, so cells outside that range are
never written. -/
def gaussianBlur (data : ℕ → α) (w h : ℕ) : ℕ → α :=
  writeLoop (interiorCoords w h) (lix w) (fun p => u8Store (blurSum data w p / 16))
    (fun _ => 0)

/-- Horizontal Sobel response `gx` at interior pixel `p`. -/
def sobelGx (data : ℕ → α) (w : ℕ) (p : ℕ × ℕ) : α :=
  data ((p.2 - 1) * w + (p.1 - 1)) * (-1) + data ((p.2 - 1) * w + (p.1 + 1)) * 1 +
  data (p.2 * w + (p.1 - 1)) * (-2) + data (p.2 * w + (p.1 + 1)) * 2 +
  data ((p.2 + 1) * w + (p.1 - 1)) * (-1) + data ((p.2 + 1) * w + (p.1 + 1)) * 1

/-- Vertical Sobel response `gy` at interior pixel `p`. -/
def sobelGy (data : ℕ → α) (w : ℕ) (p : ℕ × ℕ) : α :=
  data ((p.2 - 1) * w + (p.1 - 1)) * (-1) + data ((p.2 - 1) * w + p.1) * (-2) +
    data ((p.2 - 1) * w + (p.1 + 1)) * (-1) +
  data ((p.2 + 1) * w + (p.1 - 1)) * 1 + data ((p.2 + 1) * w + p.1) * 2 +
    data ((p.2 + 1) * w + (p.1 + 1)) * 1

/-- Stage 3a, `sobelEdgeDetection` magnitude buffer:
`sqrt(gx² + gy²)` at interior pixels, 0 elsewhere (fresh `Float32Array`). -/
def sobelMagnitude (jm : JsMath α) (data : ℕ → α) (w h : ℕ) : ℕ → α :=
  writeLoop (interiorCoords w h) (lix w)
    (fun p => jm.sqrt (sobelGx data w p * sobelGx data w p +
      sobelGy data w p * sobelGy data w p))
    (fun _ => 0)

/-- Stage 3b, `sobelEdgeDetection` direction buffer: `atan2(gy, gx)`. -/
def sobelDirection (jm : JsMath α) (data : ℕ → α) (w h : ℕ) : ℕ → α :=
  writeLoop (interiorCoords w h) (lix w)
    (fun p => jm.atan2 (sobelGy data w p) (sobelGx data w p))
    (fun _ => 0)

/-- Neighbour pair selected by the gradient-direction bucket in
`nonMaxSuppression` (angle thresholds 22.5, 67.5, 112.5, 157.5 written
as exact rationals). -/
def nmsNeighbors (jm : JsMath α) (magnitude direction : ℕ → α) (w : ℕ)
    (p : ℕ × ℕ) : α × α :=
  let angle := direction (lix w p) * 180 / jm.pi
  let na := if angle < 0 then angle + 180 else angle
  if (0 ≤ na ∧ na < 45 / 2) ∨ (315 / 2 ≤ na ∧ na ≤ 180) then
    (magnitude (p.2 * w + (p.1 + 1)), magnitude (p.2 * w + (p.1 - 1)))
  else if 45 / 2 ≤ na ∧ na < 135 / 2 then
    (magnitude ((p.2 + 1) * w + (p.1 - 1)), magnitude ((p.2 - 1) * w + (p.1 + 1)))
  else if 135 / 2 ≤ na ∧ na < 225 / 2 then
    (magnitude ((p.2 + 1) * w + p.1), magnitude ((p.2 - 1) * w + p.1))
  else
    (magnitude ((p.2 - 1) * w + (p.1 - 1)), magnitude ((p.2 + 1) * w + (p.1 + 1)))

/-- Stage 4, `nonMaxSuppression`: an interior pixel keeps its magnitude
iff it is ≥ both selected neighbours; all other cells stay 0. -/
def nonMaxSuppression (jm : JsMath α) (magnitude direction : ℕ → α) (w h : ℕ) :
    ℕ → α :=
  writeLoop (interiorCoords w h) (lix w)
    (fun p =>
      let nb := nmsNeighbors jm magnitude direction w p
      if nb.1 ≤ magnitude (lix w p) ∧ nb.2 ≤ magnitude (lix w p) then
        magnitude (lix w p)
      else 0)
    (fun _ => 0)

/-- Running maximum `maxMag` of `doubleThreshold` (`if (edges[i] > maxMag)`). -/
def maxMagnitude (edges : ℕ → α) (n : ℕ) : α :=
  (List.range n).foldl (fun m i => if m < edges i then edges i else m) 0

/-- First pass of `doubleThreshold`: strong pixels (≥ high) become 255,
weak pixels (≥ low) become 128, the rest 0.  `high = 0.15 · maxMag`,
`low = 0.4 · high`. -/
def thresholdPass (edges : ℕ → α) (w h : ℕ) : ℕ → α :=
  writeLoop (List.range (w * h)) (fun i => i)
    (fun i =>
      if maxMagnitude edges (w * h) * (15 / 100) ≤ edges i then 255
      else if maxMagnitude edges (w * h) * (15 / 100) * (4 / 10) ≤ edges i then 128
      else 0)
    (fun _ => 0)

/-- The nine cells `(y+dy)·w + (x+dx)`, `dy, dx ∈ {-1,0,1}`, inspected by
the hysteresis pass (the source's loop includes the centre itself). -/
def nbIdx (w : ℕ) (p : ℕ × ℕ) : List ℕ :=
  [(p.2 - 1) * w + (p.1 - 1), (p.2 - 1) * w + p.1, (p.2 - 1) * w + (p.1 + 1),
   p.2 * w + (p.1 - 1), p.2 * w + p.1, p.2 * w + (p.1 + 1),
   (p.2 + 1) * w + (p.1 - 1), (p.2 + 1) * w + p.1, (p.2 + 1) * w + (p.1 + 1)]

/-- Does any of the nine inspected cells currently hold 255? -/
def hasStrongNb (g : ℕ → α) (w : ℕ) (p : ℕ × ℕ) : Bool :=
  (nbIdx w p).any fun i => decide (g i = 255)

/-- Second pass of `doubleThreshold`: a sequential in-place sweep over
the interior in raster order; each weak (128) cell is replaced by 255 or
0 according to the partially updated mask. -/
def hysteresis (w h : ℕ) (g0 : ℕ → α) : ℕ → α :=
  (interiorCoords w h).foldl
    (fun g p =>
      if g (lix w p) = 128 then
        updF g (lix w p) (if hasStrongNb g w p then 255 else 0)
      else g)
    g0

/-- Stage 5, `doubleThreshold`: threshold pass followed by the single
hysteresis sweep. -/
def doubleThreshold (edges : ℕ → α) (w h : ℕ) : ℕ → α :=
  hysteresis w h (thresholdPass edges w h)

/-- Stages 1–5 composed: the binary edge mask of `processDocument`
before contour tracing. -/
def edgeMask (jm : JsMath α) (img : ImgData α) : ℕ → α :=
  doubleThreshold
    (nonMaxSuppression jm
      (sobelMagnitude jm (gaussianBlur (toGrayscale img) img.width img.height)
        img.width img.height)
      (sobelDirection jm (gaussianBlur (toGrayscale img) img.width img.height)
        img.width img.height)
      img.width img.height)
    img.width img.height

/-! Evaluation and invariant lemmas for the buffer loops. -/

theorem writeLoop_self {β : Type} (l : List β) (k : β → ℕ) (v : β → α)
    (f0 : ℕ → α) (h : ∀ p ∈ l, v p = f0 (k p)) :
    writeLoop l k v f0 = f0 := by
  induction l with
  | nil => rfl
  | cons a t ih =>
    have hupd : updF f0 (k a) (v a) = f0 := by
      funext j
      by_cases hj : j = k a
      · subst hj
        rw [updF_same, h a (List.mem_cons_self a t)]
      · exact updF_other _ _ hj
    simp only [writeLoop, List.foldl_cons, hupd]
    exact ih fun p hp => h p (List.mem_cons_of_mem a hp)

theorem interiorCoords_nodup (w h : ℕ) : (interiorCoords w h).Nodup := by
  unfold interiorCoords
  rw [List.nodup_flatMap]
  constructor
  · intro yy _
    refine List.Nodup.map ?_ (List.nodup_range _)
    intro a b hab
    simpa using hab
  · rw [List.pairwise_iff_forall_sublist]
    intro a b hsub
    have hne : a ≠ b := by
      have := List.Pairwise.sublist hsub (List.nodup_range (h - 2))
      simpa using this
    intro x hx hy
    simp only [List.mem_map] at hx hy
    rcases hx with ⟨xa, _, rfl⟩
    rcases hy with ⟨xb, _, heq⟩
    have h2 : xb + 1 = xa + 1 ∧ b + 1 = a + 1 := by simpa using heq
    exact hne (by omega)

theorem interiorCoords_pairwise_lix (w h : ℕ) :
    (interiorCoords w h).Pairwise fun p q => lix w p ≠ lix w q := by
  refine List.Pairwise.imp_of_mem ?_ (interiorCoords_nodup w h)
  intro p q hp hq hne heq
  have hpw : p.1 < w := by
    have := mem_interiorCoords.mp hp
    omega
  have hqw : q.1 < w := by
    have := mem_interiorCoords.mp hq
    omega
  exact hne (lix_inj hpw hqw heq)

theorem thresholdPass_eval (edges : ℕ → α) (w h i : ℕ) (hi : i < w * h) :
    thresholdPass edges w h i =
      if maxMagnitude edges (w * h) * (15 / 100) ≤ edges i then (255 : α)
      else if maxMagnitude edges (w * h) * (15 / 100) * (4 / 10) ≤ edges i then 128
      else 0 := by
  exact writeLoop_mem _ _ _ _ _ _ ⟨i, List.mem_range.mpr hi, rfl⟩
    (fun q _ hq => by rw [hq])

theorem thresholdPass_eval_ge (edges : ℕ → α) (w h i : ℕ) (hi : w * h ≤ i) :
    thresholdPass edges w h i = 0 :=
  writeLoop_not_mem _ _ _ _ _ fun q hq => by
    have := List.mem_range.mp hq
    omega

theorem gaussianBlur_interior (data : ℕ → α) (w h : ℕ) (p : ℕ × ℕ)
    (h1 : 1 ≤ p.1) (h2 : p.1 ≤ w - 2) (h3 : 1 ≤ p.2) (h4 : p.2 ≤ h - 2) :
    gaussianBlur data w h (lix w p) = u8Store (blurSum data w p / 16) := by
  have hw : 2 < w := by omega
  have hh : 2 < h := by omega
  refine writeLoop_mem _ _ _ _ _ _
    ⟨p, mem_interiorCoords.mpr ⟨h1, h2, h3, h4, hw, hh⟩, rfl⟩ ?_
  intro q hq hkq
  have hqm := mem_interiorCoords.mp hq
  have : q = p := lix_inj (by omega) (by omega) hkq
  rw [this]

theorem gaussianBlur_border (data : ℕ → α) (w h : ℕ) (p : ℕ × ℕ)
    (hx : p.1 < w) (hy : p.2 < h)
    (hb : p.1 = 0 ∨ p.1 = w - 1 ∨ p.2 = 0 ∨ p.2 = h - 1) :
    gaussianBlur data w h (lix w p) = 0 := by
  refine writeLoop_not_mem _ _ _ _ _ ?_
  intro q hq hkq
  have hqm := mem_interiorCoords.mp hq
  have : q = p := lix_inj (by omega) hx hkq
  subst this
  omega

/-- Rewriting `hysteresis` as a fold over an arbitrary coordinate list,
for the invariant proofs. -/
def hystFold (w : ℕ) (l : List (ℕ × ℕ)) (g0 : ℕ → α) : ℕ → α :=
  l.foldl
    (fun g p =>
      if g (lix w p) = 128 then
        updF g (lix w p) (if hasStrongNb g w p then 255 else 0)
      else g)
    g0

theorem hysteresis_eq_hystFold (w h : ℕ) (g0 : ℕ → α) :
    hysteresis w h g0 = hystFold w (interiorCoords w h) g0 := rfl

theorem hystFold_persist255 (w : ℕ) (l : List (ℕ × ℕ)) (g : ℕ → α) (i : ℕ)
    (hi : g i = 255) : hystFold w l g i = 255 := by
  induction l generalizing g with
  | nil => exact hi
  | cons a t ih =>
    simp only [hystFold, List.foldl_cons]
    by_cases hc : g (lix w a) = 128
    · rw [if_pos hc]
      refine ih _ ?_
      by_cases hia : i = lix w a
      · rw [hia] at hi
        rw [hi] at hc
        norm_num at hc
      · rw [updF_other _ _ hia]
        exact hi
    · rw [if_neg hc]
      exact ih _ hi

theorem hystFold_untouched (w : ℕ) (l : List (ℕ × ℕ)) (g : ℕ → α) (i : ℕ)
    (hl : ∀ p ∈ l, lix w p ≠ i) : hystFold w l g i = g i := by
  induction l generalizing g with
  | nil => rfl
  | cons a t ih =>
    simp only [hystFold, List.foldl_cons]
    have ha : lix w a ≠ i := hl a (List.mem_cons_self a t)
    have ht : ∀ p ∈ t, lix w p ≠ i := fun p hp => hl p (List.mem_cons_of_mem a hp)
    by_cases hc : g (lix w a) = 128
    · rw [if_pos hc]
      have hres := ih (updF g (lix w a) (if hasStrongNb g w a then 255 else 0)) ht
      rw [updF_other _ _ fun hj => ha hj.symm] at hres
      exact hres
    · rw [if_neg hc]
      exact ih _ ht

theorem interior_lix_lt {w h : ℕ} {p : ℕ × ℕ} (hp : p ∈ interiorCoords w h) :
    lix w p < w * h := by
  have hm := mem_interiorCoords.mp hp
  have h1 : lix w p < (p.2 + 1) * w := by
    unfold lix
    have : p.1 < w := by omega
    rw [Nat.add_mul, Nat.one_mul]
    omega
  have h2 : (p.2 + 1) * w ≤ h * w := Nat.mul_le_mul_right w (by omega)
  calc lix w p < (p.2 + 1) * w := h1
    _ ≤ h * w := h2
    _ = w * h := Nat.mul_comm h w

theorem hystFold_append (w : ℕ) (l1 l2 : List (ℕ × ℕ)) (g : ℕ → α) :
    hystFold w (l1 ++ l2) g = hystFold w l2 (hystFold w l1 g) := by
  simp [hystFold, List.foldl_append]

/-- A weak cell whose 8-neighbourhood holds a 255 already at the start of
the sweep is always promoted: 255 cells persist through the sweep, and a
cell is only rewritten when it is visited. -/
theorem hystFold_promotes (w : ℕ) (l : List (ℕ × ℕ)) (g0 : ℕ → α) (p : ℕ × ℕ)
    (hpl : p ∈ l) (hpw : l.Pairwise fun p q => lix w p ≠ lix w q)
    (hweak : g0 (lix w p) = 128)
    (hstrong : ∃ i ∈ nbIdx w p, g0 i = 255) :
    hystFold w l g0 (lix w p) = 255 := by
  obtain ⟨L1, L2, rfl⟩ := List.append_of_mem hpl
  have hpairs := List.pairwise_append.mp hpw
  have hL1 : ∀ q ∈ L1, lix w q ≠ lix w p :=
    fun q hq => hpairs.2.2 q hq p (List.mem_cons_self p L2)
  rw [hystFold_append]
  set g1 := hystFold w L1 g0 with hg1
  have hval : g1 (lix w p) = 128 := by
    rw [hg1, hystFold_untouched w L1 g0 _ hL1, hweak]
  have hsn : hasStrongNb g1 w p = true := by
    rcases hstrong with ⟨i, hi, h255⟩
    have : g1 i = 255 := hystFold_persist255 w L1 g0 i h255
    simp only [hasStrongNb, List.any_eq_true]
    exact ⟨i, hi, by simp [this]⟩
  have hstep : hystFold w (p :: L2) g1 = hystFold w L2 (updF g1 (lix w p) 255) := by
    simp only [hystFold, List.foldl_cons, hval, if_pos, hsn, if_true]
  rw [hstep]
  exact hystFold_persist255 w L2 _ _ (updF_same _ _ _)

/-- Each cell is visited at most once, so after the sweep a visited cell
either kept a value that was not 128, or was rewritten to 0 or 255. -/
theorem hystFold_mem_binary (w : ℕ) (l : List (ℕ × ℕ)) (g0 : ℕ → α) (p : ℕ × ℕ)
    (hpl : p ∈ l) (hpw : l.Pairwise fun p q => lix w p ≠ lix w q) :
    hystFold w l g0 (lix w p) = g0 (lix w p) ∧ g0 (lix w p) ≠ 128 ∨
      hystFold w l g0 (lix w p) = 0 ∨ hystFold w l g0 (lix w p) = 255 := by
  obtain ⟨L1, L2, rfl⟩ := List.append_of_mem hpl
  have hpairs := List.pairwise_append.mp hpw
  have hL1 : ∀ q ∈ L1, lix w q ≠ lix w p :=
    fun q hq => hpairs.2.2 q hq p (List.mem_cons_self p L2)
  have hL2 : ∀ q ∈ L2, lix w p ≠ lix w q := by
    intro q hq
    exact (List.pairwise_cons.mp hpairs.2.1).1 q hq
  rw [hystFold_append]
  set g1 := hystFold w L1 g0 with hg1
  have hval : g1 (lix w p) = g0 (lix w p) := by
    rw [hg1, hystFold_untouched w L1 g0 _ hL1]
  by_cases h128 : g0 (lix w p) = 128
  · right
    have hstep : hystFold w (p :: L2) g1 =
        hystFold w L2 (updF g1 (lix w p) (if hasStrongNb g1 w p then 255 else 0)) := by
      simp only [hystFold, List.foldl_cons, hval, h128, if_pos]
    rw [hstep, hystFold_untouched w L2 _ _ (fun q hq => fun he => hL2 q hq he.symm),
      updF_same]
    by_cases hs : hasStrongNb g1 w p
    · right; rw [if_pos hs]
    · left; rw [if_neg hs]
  · left
    have hvne : g1 (lix w p) ≠ 128 := by rw [hval]; exact h128
    have hstep : hystFold w (p :: L2) g1 = hystFold w L2 g1 := by
      simp only [hystFold, List.foldl_cons, hvne, if_neg, if_false]
    rw [hstep, hystFold_untouched w L2 _ _ (fun q hq => fun he => hL2 q hq he.symm),
      hval]
    exact ⟨rfl, h128⟩

theorem hystFold_no128 (w : ℕ) (l : List (ℕ × ℕ)) (g : ℕ → α)
    (h : ∀ p ∈ l, g (lix w p) ≠ 128) : hystFold w l g = g := by
  induction l with
  | nil => rfl
  | cons a t ih =>
    simp only [hystFold, List.foldl_cons, if_neg (h a (List.mem_cons_self a t))]
    exact ih fun p hp => h p (List.mem_cons_of_mem a hp)

/-- C5 (amended): `gaussianBlur` writes a fresh zero buffer and loops
only over the interior, so border cells read 0 (not the input value),
while interior cells hold the 16-normalised kernel sum as stored into a
`Uint8ClampedArray`. -/
theorem C5_theorem (data : ℕ → α) (w h : ℕ) (p q : ℕ × ℕ)
    (hx : p.1 < w) (hy : p.2 < h)
    (hb : p.1 = 0 ∨ p.1 = w - 1 ∨ p.2 = 0 ∨ p.2 = h - 1)
    (h1 : 1 ≤ q.1) (h2 : q.1 ≤ w - 2) (h3 : 1 ≤ q.2) (h4 : q.2 ≤ h - 2) :
    gaussianBlur data w h (lix w p) = 0 ∧
      gaussianBlur data w h (lix w q) = u8Store (blurSum data w q / 16) :=
  ⟨gaussianBlur_border data w h p hx hy hb,
    gaussianBlur_interior data w h q h1 h2 h3 h4⟩

/-- Witness for C5: a 3×3 constant-16 raster; the border cell (0,0) reads
0 while the single interior cell (1,1) holds the kernel average. -/
theorem C5_witness :
    gaussianBlur (fun _ => (16 : ℚ)) 3 3 (lix 3 (0, 0)) = 0 ∧
      gaussianBlur (fun _ => (16 : ℚ)) 3 3 (lix 3 (1, 1)) =
        u8Store (blurSum (fun _ => (16 : ℚ)) 3 (1, 1) / 16) :=
  C5_theorem (fun _ => (16 : ℚ)) 3 3 (0, 0) (1, 1) (by norm_num) (by norm_num)
    (Or.inl rfl) (by norm_num) (by norm_num) (by norm_num) (by norm_num)

/-- Counterexample for C5 as stated: on the uniform 3×3 raster with value
7, the border pixel (0,0) of the blurred output is 0, not the input value
7 — border pixels are zeroed, not passed through. -/
theorem C5_counterexample :
    gaussianBlur (fun _ => (7 : ℚ)) 3 3 (lix 3 (0, 0)) = 0 ∧ (0 : ℚ) ≠ 7 :=
  ⟨gaussianBlur_border (fun _ => (7 : ℚ)) 3 3 (0, 0) (by norm_num) (by norm_num)
    (Or.inl rfl), by norm_num⟩

/-- Generic fold that keeps a zero accumulator fixed. -/
theorem foldl_fix_zero {β : Type} (f : α → β → α) (l : List β)
    (hf : ∀ b, f 0 b = 0) : l.foldl f 0 = 0 := by
  induction l with
  | nil => rfl
  | cons a t ih =>
    rw [List.foldl_cons, hf a]
    exact ih

/-- An all-black RGBA raster of the given dimensions. -/
def blackImg (w h : ℕ) : ImgData α := ⟨w, h, fun _ => 0⟩

theorem jsRound_zero : jsRound (0 : α) = 0 := by
  unfold jsRound
  rw [zero_add]
  rw [Int.floor_eq_zero_iff]
  constructor <;> norm_num

theorem toGrayscale_black (w h : ℕ) :
    toGrayscale (blackImg (α := α) w h) = fun _ => 0 := by
  apply writeLoop_self
  intro p _
  have hz : 299 / 1000 * (0 : α) + 587 / 1000 * 0 + 114 / 1000 * 0 = 0 := by ring
  simp only [blackImg, hz, jsRound_zero]
  simpa using u8Store_zero (α := α)

theorem gaussianBlur_zero (w h : ℕ) :
    gaussianBlur (fun _ => (0 : α)) w h = fun _ => 0 := by
  apply writeLoop_self
  intro p _
  have hz : blurSum (fun _ => (0 : α)) w p = 0 := by
    simp [blurSum]
  rw [hz, zero_div, u8Store_zero]

theorem sobelMagnitude_zero (jm : JsMath α) (w h : ℕ) (hs : jm.sqrt 0 = 0) :
    sobelMagnitude jm (fun _ => (0 : α)) w h = fun _ => 0 := by
  apply writeLoop_self
  intro p _
  have hx : sobelGx (fun _ => (0 : α)) w p = 0 := by simp [sobelGx]
  have hy : sobelGy (fun _ => (0 : α)) w p = 0 := by simp [sobelGy]
  rw [hx, hy]
  simpa using hs

theorem nonMaxSuppression_zeroMag (jm : JsMath α) (dir : ℕ → α) (w h : ℕ) :
    nonMaxSuppression jm (fun _ => (0 : α)) dir w h = fun _ => 0 := by
  apply writeLoop_self
  intro p _
  simp

theorem maxMagnitude_zero (n : ℕ) : maxMagnitude (fun _ => (0 : α)) n = 0 := by
  unfold maxMagnitude
  apply foldl_fix_zero
  intro b
  norm_num

/-- On an all-zero edge buffer both adaptive thresholds are 0, so the
threshold pass marks every in-range pixel strong (`0 ≥ 0`). -/
theorem thresholdPass_zero (w h i : ℕ) :
    thresholdPass (fun _ => (0 : α)) w h i = if i < w * h then 255 else 0 := by
  by_cases hi : i < w * h
  · rw [if_pos hi, thresholdPass_eval _ _ _ _ hi, maxMagnitude_zero]
    norm_num
  · rw [if_neg hi, thresholdPass_eval_ge _ _ _ _ (by omega)]

/-- The edge mask of an all-black raster: every pixel is classified
strong (255), because the maximum magnitude — hence both adaptive
thresholds — is 0, and `edges[i] >= highThreshold` then holds everywhere. -/
theorem edgeMask_black (jm : JsMath α) (w h : ℕ) (hs : jm.sqrt 0 = 0) (i : ℕ) :
    edgeMask jm (blackImg w h) i = if i < w * h then 255 else 0 := by
  unfold edgeMask
  rw [toGrayscale_black]
  simp only [blackImg]
  rw [gaussianBlur_zero, sobelMagnitude_zero jm w h hs, nonMaxSuppression_zeroMag]
  unfold doubleThreshold
  rw [hysteresis_eq_hystFold, hystFold_no128]
  · exact thresholdPass_zero w h i
  · intro p hp
    rw [thresholdPass_zero w h _, if_pos (interior_lix_lt hp)]
    norm_num

/-- C4 (amended): the hysteresis pass updates the mask in place in raster
order, so a weak pixel is promoted when its 8-neighbourhood holds a 255
at visit time — in particular every weak pixel with a neighbour that was
strong already at thresholding time is promoted — and promotions can
cascade along the scan; when the input buffer is zero on the raster
border (as the non-maximum-suppression output always is), the final mask
is binary, holding only 0 and 255. -/
theorem C4_theorem (edges : ℕ → α) (w h : ℕ)
    (hborder : ∀ p : ℕ × ℕ, p.1 < w → p.2 < h →
      (p.1 = 0 ∨ p.1 = w - 1 ∨ p.2 = 0 ∨ p.2 = h - 1) → edges (lix w p) = 0) :
    (∀ p ∈ interiorCoords w h, thresholdPass edges w h (lix w p) = 128 →
      (∃ i ∈ nbIdx w p, thresholdPass edges w h i = 255) →
      doubleThreshold edges w h (lix w p) = 255) ∧
    (∀ j, doubleThreshold edges w h j = 0 ∨ doubleThreshold edges w h j = 255) := by
  constructor
  · intro p hp hweak hstrong
    unfold doubleThreshold
    rw [hysteresis_eq_hystFold]
    exact hystFold_promotes w _ _ p hp (interiorCoords_pairwise_lix w h) hweak hstrong
  · intro j
    unfold doubleThreshold
    rw [hysteresis_eq_hystFold]
    by_cases hj : j < w * h
    · -- decompose j into raster coordinates
      have hw : 0 < w := by
        rcases Nat.eq_zero_or_pos w with h0 | h0
        · rw [h0] at hj; simp at hj
        · exact h0
      set p : ℕ × ℕ := (j % w, j / w) with hpdef
      have hx : p.1 < w := Nat.mod_lt _ hw
      have hyv : p.2 < h := by
        rw [hpdef]
        simp only
        rw [Nat.div_lt_iff_lt_mul hw]
        calc j < w * h := hj
          _ = h * w := Nat.mul_comm w h
      have hlix : lix w p = j := by
        rw [hpdef]
        unfold lix
        simp only
        rw [Nat.mul_comm]
        exact Nat.div_add_mod j w
      rcases Classical.em (1 ≤ p.1 ∧ p.1 ≤ w - 2 ∧ 1 ≤ p.2 ∧ p.2 ≤ h - 2) with hint | hbord
      · -- interior cell: visited exactly once
        have hpmem : p ∈ interiorCoords w h :=
          mem_interiorCoords.mpr ⟨hint.1, hint.2.1, hint.2.2.1, hint.2.2.2, by omega, by omega⟩
        have := hystFold_mem_binary w _ (thresholdPass edges w h) p hpmem
          (interiorCoords_pairwise_lix w h)
        rw [hlix] at this
        rcases this with ⟨heq, hne⟩ | h0 | h255
        · rw [heq, ← hlix, thresholdPass_eval _ _ _ _ (hlix ▸ hj)]
          rw [← hlix, thresholdPass_eval _ _ _ _ (hlix ▸ hj)] at hne
          split_ifs with hc1 hc2
          · right; rfl
          · exfalso; apply hne; rw [if_neg hc1, if_pos hc2]
          · left; rfl
        · left; exact h0
        · right; exact h255
      · -- border cell: never visited, and never weak since its input is 0
        have hbz : edges j = 0 := by
          rw [← hlix]
          exact hborder p hx hyv (by omega)
        have hthr : thresholdPass edges w h j = 0 ∨ thresholdPass edges w h j = 255 := by
          rw [thresholdPass_eval _ _ _ _ hj, hbz]
          split_ifs with hc1 hc2
          · right; rfl
          · exfalso
            -- high > 0 but low = 0.4 high ≤ 0 is impossible
            push_neg at hc1
            nlinarith
          · left; rfl
        have huntouched : hystFold w (interiorCoords w h) (thresholdPass edges w h) j =
            thresholdPass edges w h j := by
          apply hystFold_untouched
          intro q hq hqe
          have hqm := mem_interiorCoords.mp hq
          have : q = p := by
            apply lix_inj (by omega) hx
            rw [hqe, hlix]
          rw [this] at hqm
          omega
        rw [huntouched]
        exact hthr
    · -- out of range: never written by either pass
      have h0 : thresholdPass edges w h j = 0 := thresholdPass_eval_ge _ _ _ _ (by omega)
      have huntouched : hystFold w (interiorCoords w h) (thresholdPass edges w h) j =
          thresholdPass edges w h j := by
        apply hystFold_untouched
        intro q hq hqe
        have := interior_lix_lt hq
        omega
      left
      rw [huntouched, h0]

/-- Concrete 5×5 magnitude buffer: a strong seed at (1,1) followed by two
weak cells (2,1), (3,1); `max = 20`, `high = 3`, `low = 6/5`. -/
def hystEx : ℕ → ℚ := fun i => if i = 6 then 20 else if i = 7 then 2 else if i = 8 then 2 else 0

theorem hystEx_max : maxMagnitude hystEx 25 = 20 := by
  norm_num [maxMagnitude, List.range_succ, List.foldl_append, List.foldl_cons,
    List.foldl_nil, hystEx]

theorem hystEx_thr (i : ℕ) (hi : i < 25) :
    thresholdPass hystEx 5 5 i =
      if i = 6 then (255 : ℚ) else if i = 7 then 128 else if i = 8 then 128 else 0 := by
  rw [show (25 : ℕ) = 5 * 5 from rfl] at hi
  rw [thresholdPass_eval _ _ _ _ hi]
  rw [show (5 * 5 : ℕ) = 25 from rfl, hystEx_max]
  by_cases h6 : i = 6
  · subst h6; norm_num [hystEx]
  · by_cases h7 : i = 7
    · subst h7; norm_num [hystEx]
    · by_cases h8 : i = 8
      · subst h8; norm_num [hystEx]
      · have : hystEx i = 0 := by simp [hystEx, h6, h7, h8]
        rw [this]
        norm_num [h6, h7, h8]

theorem hystEx_thrFun : thresholdPass hystEx 5 5 =
    fun i => if i = 6 then (255 : ℚ) else if i = 7 then 128 else if i = 8 then 128 else 0 := by
  funext i
  by_cases hi : i < 25
  · exact hystEx_thr i hi
  · rw [thresholdPass_eval_ge _ _ _ _ (by omega)]
    have h6 : i ≠ 6 := by omega
    have h7 : i ≠ 7 := by omega
    have h8 : i ≠ 8 := by omega
    simp [h6, h7, h8]

theorem interiorCoords55 : interiorCoords 5 5 =
    [(1, 1), (2, 1), (3, 1), (1, 2), (2, 2), (3, 2), (1, 3), (2, 3), (3, 3)] := by
  simp [interiorCoords, List.range_succ]

/-- Witness for C4: on `hystEx`, the weak cell (2,1) has the strong seed
(1,1) as an original neighbour and is promoted, and the mask is binary at
cell 0. -/
theorem C4_witness :
    doubleThreshold hystEx 5 5 (lix 5 (2, 1)) = 255 ∧
      (doubleThreshold hystEx 5 5 0 = 0 ∨ doubleThreshold hystEx 5 5 0 = 255) := by
  have hborder : ∀ p : ℕ × ℕ, p.1 < 5 → p.2 < 5 →
      (p.1 = 0 ∨ p.1 = 5 - 1 ∨ p.2 = 0 ∨ p.2 = 5 - 1) → hystEx (lix 5 p) = 0 := by
    intro p h1 h2 hb
    have hne : lix 5 p ≠ 6 ∧ lix 5 p ≠ 7 ∧ lix 5 p ≠ 8 := by
      unfold lix
      omega
    simp [hystEx, hne.1, hne.2.1, hne.2.2]
  have h := C4_theorem hystEx 5 5 hborder
  constructor
  · apply h.1 (2, 1)
    · exact mem_interiorCoords.mpr (by norm_num)
    · rw [show lix 5 (2, 1) = 7 from rfl]
      rw [hystEx_thr 7 (by norm_num)]
      norm_num
    · refine ⟨6, ?_, ?_⟩
      · simp [nbIdx]
      · rw [hystEx_thr 6 (by norm_num)]
        norm_num
  · exact h.2 0

/-- Counterexample for C4 as stated: cell (3,1) (index 8) is weak after
thresholding and none of its eight neighbours is strong at thresholding
time (indices 2,3,4,7,9,12,13,14 hold 0 or 128) — the static reading of
the claim demands it drop to 0 — yet the sweep promotes it to 255,
because neighbour (2,1) was itself promoted earlier in the same pass. -/
theorem C4_counterexample :
    thresholdPass hystEx 5 5 8 = 128 ∧
    thresholdPass hystEx 5 5 2 = 0 ∧ thresholdPass hystEx 5 5 3 = 0 ∧
    thresholdPass hystEx 5 5 4 = 0 ∧ thresholdPass hystEx 5 5 7 = 128 ∧
    thresholdPass hystEx 5 5 9 = 0 ∧ thresholdPass hystEx 5 5 12 = 0 ∧
    thresholdPass hystEx 5 5 13 = 0 ∧ thresholdPass hystEx 5 5 14 = 0 ∧
    doubleThreshold hystEx 5 5 8 = 255 ∧ (255 : ℚ) ≠ 0 := by
  refine ⟨by rw [hystEx_thr 8 (by norm_num)]; norm_num,
    by rw [hystEx_thr 2 (by norm_num)]; norm_num,
    by rw [hystEx_thr 3 (by norm_num)]; norm_num,
    by rw [hystEx_thr 4 (by norm_num)]; norm_num,
    by rw [hystEx_thr 7 (by norm_num)]; norm_num,
    by rw [hystEx_thr 9 (by norm_num)]; norm_num,
    by rw [hystEx_thr 12 (by norm_num)]; norm_num,
    by rw [hystEx_thr 13 (by norm_num)]; norm_num,
    by rw [hystEx_thr 14 (by norm_num)]; norm_num,
    ?_, by norm_num⟩
  unfold doubleThreshold
  rw [hysteresis_eq_hystFold, hystEx_thrFun, interiorCoords55]
  norm_num [hystFold, List.foldl_cons, List.foldl_nil, lix, updF, hasStrongNb,
    nbIdx, List.any_cons, List.any_nil]

/-! Corner ordering.  JS `Array.prototype.sort` is a stable sort by the
comparator, modelled by `List.mergeSort` with the corresponding boolean
order: `(a.x+a.y)-(b.x+b.y)` sorts ascending by coordinate sum, and
`(b.x-b.y)-(a.x-a.y)` sorts descending by coordinate difference. -/

/-- Comparator of the first sort in `orderCorners`. -/
def sumLe (a b : Pt α) : Bool := decide (a.x + a.y ≤ b.x + b.y)

/-- Comparator of the second sort in `orderCorners` (descending `x - y`). -/
def diffGe (a b : Pt α) : Bool := decide (b.x - b.y ≤ a.x - a.y)

/-- `orderCorners`: sort by coordinate sum; position 0 is top-left and
position 3 bottom-right; the remaining two are sorted descending by
`x - y`, larger first (top-right). -/
def orderCorners (corners : List (Pt α)) : List (Pt α) :=
  let sorted := corners.mergeSort sumLe
  let topLeft := sorted.getD 0 ⟨0, 0⟩
  let bottomRight := sorted.getD 3 ⟨0, 0⟩
  let remaining := [sorted.getD 1 ⟨0, 0⟩, sorted.getD 2 ⟨0, 0⟩]
  let rem2 := remaining.mergeSort diffGe
  [topLeft, rem2.getD 0 ⟨0, 0⟩, bottomRight, rem2.getD 1 ⟨0, 0⟩]

theorem mergeSort_pair {β : Type} (le : β → β → Bool) (a b : β) :
    List.mergeSort [a, b] le = if le a b then [a, b] else [b, a] := by
  rw [List.mergeSort]
  simp only [List.splitInTwo, List.splitAt_eq]
  norm_num [List.merge]

theorem mergeSort_four {β : Type} (le : β → β → Bool) (a b c d : β) :
    List.mergeSort [a, b, c, d] le =
      List.merge (if le a b then [a, b] else [b, a])
        (if le c d then [c, d] else [d, c]) le := by
  rw [List.mergeSort]
  simp only [List.splitInTwo, List.splitAt_eq]
  norm_num [mergeSort_pair]

theorem list_four {β : Type} (s : List β) (h : s.length = 4) :
    ∃ a b c d, s = [a, b, c, d] := by
  match s, h with
  | [a, b, c, d], _ => exact ⟨a, b, c, d, rfl⟩

/-- Two sorted permutations of each other agree when the sort keys are
pairwise distinct. -/
theorem sorted_perm_eq {β : Type} (key : β → α) (l₁ l₂ : List β)
    (hp : l₁.Perm l₂)
    (h₁ : l₁.Pairwise fun a b => key a ≤ key b)
    (h₂ : l₂.Pairwise fun a b => key a ≤ key b)
    (hd : l₁.Pairwise fun a b => key a ≠ key b) : l₁ = l₂ := by
  induction l₁ generalizing l₂ with
  | nil => exact (hp.symm.eq_nil).symm ▸ rfl
  | cons a t₁ ih =>
    cases l₂ with
    | nil => exact absurd hp.eq_nil (by simp)
    | cons b t₂ =>
      have hb1 : b ∈ a :: t₁ := hp.symm.mem_iff.mp (List.mem_cons_self b t₂)
      have hba : b = a := by
        rcases List.mem_cons.mp hb1 with h | hbt
        · exact h
        · exfalso
          have hab : key a ≤ key b := (List.pairwise_cons.mp h₁).1 b hbt
          have hne : key a ≠ key b := (List.pairwise_cons.mp hd).1 b hbt
          have ha2 : a ∈ b :: t₂ := hp.mem_iff.mp (List.mem_cons_self a t₁)
          rcases List.mem_cons.mp ha2 with h' | hat
          · exact hne (h' ▸ rfl)
          · exact hne (le_antisymm hab ((List.pairwise_cons.mp h₂).1 a hat))
      subst hba
      have htl := hp.cons_inv
      rw [ih t₂ htl (List.pairwise_cons.mp h₁).2 (List.pairwise_cons.mp h₂).2
        (List.pairwise_cons.mp hd).2]

theorem sumLe_trans : ∀ a b c : Pt α, sumLe a b → sumLe b c → sumLe a c := by
  intro a b c hab hbc
  simp only [sumLe, decide_eq_true_eq] at *
  exact le_trans hab hbc

theorem sumLe_total : ∀ a b : Pt α, sumLe a b || sumLe b a := by
  intro a b
  simp only [sumLe, Bool.or_eq_true, decide_eq_true_eq]
  exact le_total _ _

/-- C8 (amended): `orderCorners` is idempotent on every 4-point list
whose coordinate sums `x + y` are pairwise distinct (ties in the sum
sort, resolved by stability, can change position 0 or 3 on the second
pass, as the counterexample shows). -/
theorem C8_theorem (p0 p1 p2 p3 : Pt α)
    (hd : ([p0, p1, p2, p3].map fun p => p.x + p.y).Pairwise (· ≠ ·)) :
    orderCorners (orderCorners [p0, p1, p2, p3]) = orderCorners [p0, p1, p2, p3] := by
  have hd' : ([p0, p1, p2, p3] : List (Pt α)).Pairwise
      (fun a b => a.x + a.y ≠ b.x + b.y) := by
    rwa [List.pairwise_map] at hd
  set l : List (Pt α) := [p0, p1, p2, p3] with hl
  have hs_perm : (l.mergeSort sumLe).Perm l := List.mergeSort_perm l sumLe
  have hs_sorted := List.sorted_mergeSort sumLe_trans sumLe_total l
  have hs_len : (l.mergeSort sumLe).length = 4 := by
    rw [List.length_mergeSort, hl]
    rfl
  obtain ⟨q0, q1, q2, q3, hs_eq⟩ := list_four _ hs_len
  have hs_sorted' : ([q0, q1, q2, q3] : List (Pt α)).Pairwise
      (fun a b => a.x + a.y ≤ b.x + b.y) := by
    rw [hs_eq] at hs_sorted
    exact hs_sorted.imp fun h => by simpa [sumLe] using h
  have hs_dist : ([q0, q1, q2, q3] : List (Pt α)).Pairwise
      (fun a b => a.x + a.y ≠ b.x + b.y) := by
    rw [hs_eq] at hs_perm
    exact (hs_perm.pairwise_iff fun h => Ne.symm h).mpr hd'
  -- the first application
  have hout : orderCorners l =
      [q0, (List.mergeSort [q1, q2] diffGe).getD 0 ⟨0, 0⟩, q3,
        (List.mergeSort [q1, q2] diffGe).getD 1 ⟨0, 0⟩] := by
    unfold orderCorners
    rw [hs_eq]
    rfl
  rw [hout]
  rw [mergeSort_pair]
  by_cases hdg : diffGe q1 q2
  case pos =>
    rw [if_pos hdg]
    simp only [List.getD_cons_zero, List.getD_cons_succ]
    -- the second sort sees the same multiset and produces the same sorted list
    have hperm2 : (List.mergeSort [q0, q1, q3, q2] sumLe).Perm [q0, q1, q2, q3] := by
      refine (List.mergeSort_perm _ _).trans ?_
      exact List.Perm.cons q0 (List.Perm.cons q1 (List.Perm.swap q2 q3 []))
    have hsorted2 := List.sorted_mergeSort sumLe_trans sumLe_total [q0, q1, q3, q2]
    have heq2 : List.mergeSort [q0, q1, q3, q2] sumLe = [q0, q1, q2, q3] := by
      refine sorted_perm_eq (fun p => p.x + p.y) _ _ hperm2 ?_ hs_sorted' ?_
      · exact hsorted2.imp fun h => by simpa [sumLe] using h
      · exact (hperm2.pairwise_iff fun h => Ne.symm h).mpr hs_dist
    unfold orderCorners
    rw [heq2]
    simp only [List.getD_cons_zero, List.getD_cons_succ]
    rw [mergeSort_pair, if_pos hdg]
    rfl
  case neg =>
    rw [if_neg hdg]
    simp only [List.getD_cons_zero, List.getD_cons_succ]
    have hperm2 : (List.mergeSort [q0, q2, q3, q1] sumLe).Perm [q0, q1, q2, q3] := by
      refine (List.mergeSort_perm _ _).trans ?_
      refine List.Perm.cons q0 ?_
      exact List.Perm.trans (List.Perm.cons q2 (List.Perm.swap q1 q3 []))
        (List.Perm.swap q1 q2 [q3])
    have hsorted2 := List.sorted_mergeSort sumLe_trans sumLe_total [q0, q2, q3, q1]
    have heq2 : List.mergeSort [q0, q2, q3, q1] sumLe = [q0, q1, q2, q3] := by
      refine sorted_perm_eq (fun p => p.x + p.y) _ _ hperm2 ?_ hs_sorted' ?_
      · exact hsorted2.imp fun h => by simpa [sumLe] using h
      · exact (hperm2.pairwise_iff fun h => Ne.symm h).mpr hs_dist
    unfold orderCorners
    rw [heq2]
    simp only [List.getD_cons_zero, List.getD_cons_succ]
    rw [mergeSort_pair, if_neg hdg]
    rfl

/-- Witness for C8: four points with pairwise distinct coordinate sums. -/
theorem C8_witness :
    orderCorners (orderCorners [(⟨0, 0⟩ : Pt ℚ), ⟨2, 0⟩, ⟨2, 1⟩, ⟨1, 3⟩]) =
      orderCorners [(⟨0, 0⟩ : Pt ℚ), ⟨2, 0⟩, ⟨2, 1⟩, ⟨1, 3⟩] :=
  C8_theorem ⟨0, 0⟩ ⟨2, 0⟩ ⟨2, 1⟩ ⟨1, 3⟩ (by norm_num)

/-- Counterexample for C8 as stated: on the 4-point list
(0,4),(4,0),(1,3),(3,1), whose coordinate sums are all tied at 4, the
stable sum sort keeps insertion order, so re-ordering the ordered output
picks a different bottom-right corner and swaps positions. -/
theorem C8_counterexample :
    orderCorners (orderCorners [(⟨0, 4⟩ : Pt ℚ), ⟨4, 0⟩, ⟨1, 3⟩, ⟨3, 1⟩]) ≠
      orderCorners [(⟨0, 4⟩ : Pt ℚ), ⟨4, 0⟩, ⟨1, 3⟩, ⟨3, 1⟩] := by
  have h1 : orderCorners [(⟨0, 4⟩ : Pt ℚ), ⟨4, 0⟩, ⟨1, 3⟩, ⟨3, 1⟩] =
      [⟨0, 4⟩, ⟨4, 0⟩, ⟨3, 1⟩, ⟨1, 3⟩] := by
    unfold orderCorners
    rw [mergeSort_four]
    norm_num [sumLe, diffGe, List.merge, mergeSort_pair]
  have h2 : orderCorners [(⟨0, 4⟩ : Pt ℚ), ⟨4, 0⟩, ⟨3, 1⟩, ⟨1, 3⟩] =
      [⟨0, 4⟩, ⟨4, 0⟩, ⟨1, 3⟩, ⟨3, 1⟩] := by
    unfold orderCorners
    rw [mergeSort_four]
    norm_num [sumLe, diffGe, List.merge, mergeSort_pair]
  rw [h1, h2]
  intro h
  have := List.cons.injEq _ _ _ _ ▸ h
  simp only [List.cons.injEq] at h
  have h3 := h.2.2.1
  have : (1 : ℚ) = 3 := congrArg Pt.x h3
  norm_num at this

/-! Convex hull (Graham scan).  `convexHull` swaps the lowest point into
index 0 of the caller's array before sorting a copy of the rest by polar
angle, so the mutation is part of the model: `convexHullMut` returns the
array as left behind together with the hull. -/

/-- Lexicographic "lower" order used to pick the Graham-scan pivot:
smaller `y`, ties broken by smaller `x`. -/
def lexLe (a b : Pt α) : Prop := a.y < b.y ∨ (a.y = b.y ∧ a.x ≤ b.x)

theorem lexLe_refl (a : Pt α) : lexLe a a := Or.inr ⟨rfl, le_refl _⟩

theorem lexLe_trans {a b c : Pt α} (hab : lexLe a b) (hbc : lexLe b c) :
    lexLe a c := by
  rcases hab with h | ⟨he, hx⟩ <;> rcases hbc with h' | ⟨he', hx'⟩
  · exact Or.inl (lt_trans h h')
  · exact Or.inl (he' ▸ h)
  · exact Or.inl (he ▸ h')
  · exact Or.inr ⟨he.trans he', le_trans hx hx'⟩

theorem lexLe_of_not_lt {a b : Pt α}
    (h : ¬(a.y < b.y ∨ (a.y = b.y ∧ a.x < b.x))) : lexLe b a := by
  push_neg at h
  rcases eq_or_lt_of_le h.1 with heq | hlt
  · exact Or.inr ⟨heq, h.2 heq.symm⟩
  · exact Or.inl hlt

/-- Index of the lowest point: the source scans `i = 1 .. n-1`, updating
`lowest` on a strict lexicographic improvement. -/
def lowestIdx (pts : List (Pt α)) : ℕ :=
  ((List.range pts.length).drop 1).foldl
    (fun low i =>
      if (pts.getD i ⟨0, 0⟩).y < (pts.getD low ⟨0, 0⟩).y ∨
          ((pts.getD i ⟨0, 0⟩).y = (pts.getD low ⟨0, 0⟩).y ∧
            (pts.getD i ⟨0, 0⟩).x < (pts.getD low ⟨0, 0⟩).x) then i
      else low)
    0

/-- The destructuring swap
`[points[0], points[lowest]] = [points[lowest], points[0]]`. -/
def swapLow (pts : List (Pt α)) (j : ℕ) : List (Pt α) :=
  match j, pts with
  | 0, pts => pts
  | _ + 1, [] => []
  | j + 1, a :: t => t.getD j ⟨0, 0⟩ :: t.set j a

/-- Graham-scan pop loop, with the hull stack held top-first: pop while
the top two points and the incoming point make a non-left turn
(cross product ≤ 0). -/
def popHull (point : Pt α) : List (Pt α) → List (Pt α)
  | top :: second :: rest =>
    if (top.x - second.x) * (point.y - second.y) -
        (top.y - second.y) * (point.x - second.x) ≤ 0 then
      popHull point (second :: rest)
    else top :: second :: rest
  | l => l

/-- `convexHull` with its side effect: the returned pair is (the input
array after the pivot swap, the hull in push order).  Fewer than 3
points are returned as-is. -/
def convexHullMut (jm : JsMath α) (points : List (Pt α)) :
    List (Pt α) × List (Pt α) :=
  if points.length < 3 then (points, points)
  else
    let swapped := swapLow points (lowestIdx points)
    let pivot := swapped.getD 0 ⟨0, 0⟩
    let sorted := (swapped.drop 1).mergeSort fun a b =>
      decide (jm.atan2 (a.y - pivot.y) (a.x - pivot.x) ≤
        jm.atan2 (b.y - pivot.y) (b.x - pivot.x))
    let hullRev := sorted.foldl (fun hull point => point :: popHull point hull) [pivot]
    (swapped, hullRev.reverse)

/-- The hull as used by the pipeline (the mutation is dropped there: the
contour array is not reused after `convexHull`). -/
def convexHull (jm : JsMath α) (points : List (Pt α)) : List (Pt α) :=
  (convexHullMut jm points).2

theorem getD_cons_set_perm (d : Pt α) :
    ∀ (t : List (Pt α)) (j : ℕ) (a : Pt α), j < t.length →
      (t.getD j d :: t.set j a).Perm (a :: t)
  | [], j, a, hj => by simp at hj
  | b :: t, 0, a, _ => by
    simpa using List.Perm.swap a b t
  | b :: t, j + 1, a, hj => by
    simp only [List.getD_cons_succ, List.set_cons_succ]
    refine List.Perm.trans (List.Perm.swap b (t.getD j d) (t.set j a)) ?_
    refine List.Perm.trans (List.Perm.cons b
      (getD_cons_set_perm d t j a (by simpa using hj))) ?_
    exact List.Perm.swap a b t

theorem swapLow_perm (pts : List (Pt α)) (j : ℕ) (hj : j < pts.length) :
    (swapLow pts j).Perm pts := by
  match j, pts with
  | 0, pts => exact List.Perm.refl _
  | j + 1, [] => simp at hj
  | j + 1, a :: t =>
    simp only [swapLow]
    exact getD_cons_set_perm _ t j a (by simpa using hj)

theorem swapLow_getD_zero (pts : List (Pt α)) (j : ℕ) (hj : j < pts.length) :
    (swapLow pts j).getD 0 ⟨0, 0⟩ = pts.getD j ⟨0, 0⟩ := by
  match j, pts with
  | 0, pts => rfl
  | j + 1, [] => simp at hj
  | j + 1, a :: t => simp [swapLow]

/-- Invariant of the argmin fold: the final index is the start index or a
scanned one, and its point is lexicographically ≤ all of them. -/
theorem lowestFold_spec (pts : List (Pt α)) :
    ∀ (L : List ℕ) (acc : ℕ),
      (L.foldl
        (fun low i =>
          if (pts.getD i ⟨0, 0⟩).y < (pts.getD low ⟨0, 0⟩).y ∨
              ((pts.getD i ⟨0, 0⟩).y = (pts.getD low ⟨0, 0⟩).y ∧
                (pts.getD i ⟨0, 0⟩).x < (pts.getD low ⟨0, 0⟩).x) then i
          else low) acc = acc ∨
        (L.foldl
          (fun low i =>
            if (pts.getD i ⟨0, 0⟩).y < (pts.getD low ⟨0, 0⟩).y ∨
                ((pts.getD i ⟨0, 0⟩).y = (pts.getD low ⟨0, 0⟩).y ∧
                  (pts.getD i ⟨0, 0⟩).x < (pts.getD low ⟨0, 0⟩).x) then i
            else low) acc) ∈ L) ∧
      lexLe (pts.getD (L.foldl
        (fun low i =>
          if (pts.getD i ⟨0, 0⟩).y < (pts.getD low ⟨0, 0⟩).y ∨
              ((pts.getD i ⟨0, 0⟩).y = (pts.getD low ⟨0, 0⟩).y ∧
                (pts.getD i ⟨0, 0⟩).x < (pts.getD low ⟨0, 0⟩).x) then i
          else low) acc) ⟨0, 0⟩) (pts.getD acc ⟨0, 0⟩) ∧
      ∀ i ∈ L, lexLe (pts.getD (L.foldl
        (fun low i =>
          if (pts.getD i ⟨0, 0⟩).y < (pts.getD low ⟨0, 0⟩).y ∨
              ((pts.getD i ⟨0, 0⟩).y = (pts.getD low ⟨0, 0⟩).y ∧
                (pts.getD i ⟨0, 0⟩).x < (pts.getD low ⟨0, 0⟩).x) then i
          else low) acc) ⟨0, 0⟩) (pts.getD i ⟨0, 0⟩) := by
  intro L
  induction L with
  | nil =>
    intro acc
    refine ⟨Or.inl rfl, lexLe_refl _, ?_⟩
    intro i hi
    simp at hi
  | cons i0 L ih =>
    intro acc
    simp only [List.foldl_cons]
    set acc1 := (if (pts.getD i0 ⟨0, 0⟩).y < (pts.getD acc ⟨0, 0⟩).y ∨
        ((pts.getD i0 ⟨0, 0⟩).y = (pts.getD acc ⟨0, 0⟩).y ∧
          (pts.getD i0 ⟨0, 0⟩).x < (pts.getD acc ⟨0, 0⟩).x) then i0 else acc) with hacc1
    have hstep : (acc1 = i0 ∨ acc1 = acc) ∧
        lexLe (pts.getD acc1 ⟨0, 0⟩) (pts.getD acc ⟨0, 0⟩) ∧
        lexLe (pts.getD acc1 ⟨0, 0⟩) (pts.getD i0 ⟨0, 0⟩) := by
      rw [hacc1]
      split_ifs with hc
      · refine ⟨Or.inl rfl, ?_, lexLe_refl _⟩
        rcases hc with h | ⟨he, hx⟩
        · exact Or.inl h
        · exact Or.inr ⟨he, le_of_lt hx⟩
      · exact ⟨Or.inr rfl, lexLe_refl _, lexLe_of_not_lt hc⟩
    obtain ⟨hm, hle_acc, hle_all⟩ := ih acc1
    refine ⟨?_, ?_, ?_⟩
    · rcases hm with h | h
      · rw [h]
        rcases hstep.1 with h' | h'
        · exact Or.inr (h' ▸ List.mem_cons_self i0 L)
        · exact Or.inl h'
      · exact Or.inr (List.mem_cons_of_mem i0 h)
    · exact lexLe_trans hle_acc hstep.2.1
    · intro i hi
      rcases List.mem_cons.mp hi with h | h
      · exact h ▸ lexLe_trans hle_acc hstep.2.2
      · exact hle_all i h

theorem mem_range_drop_one {n i : ℕ} (h1 : 1 ≤ i) (h2 : i < n) :
    i ∈ (List.range n).drop 1 := by
  refine List.mem_iff_getElem.mpr ⟨i - 1, by simp; omega, ?_⟩
  rw [List.getElem_drop, List.getElem_range]
  omega

theorem lowestIdx_lt (pts : List (Pt α)) (h : 0 < pts.length) :
    lowestIdx pts < pts.length := by
  obtain ⟨hmem, -, -⟩ := lowestFold_spec pts ((List.range pts.length).drop 1) 0
  rcases hmem with h0 | hL
  · rw [lowestIdx, h0]
    exact h
  · have := List.mem_of_mem_drop hL
    rw [lowestIdx]
    exact List.mem_range.mp this

/-- C10: for 3 or more points `convexHull` swaps the lexicographically
lowest point (smallest y, ties by smallest x) into index 0 of the
caller's array — a visible in-place mutation that nevertheless preserves
the multiset of points — and for fewer than 3 points the array is
returned untouched as the hull. -/
theorem C10_theorem (jm : JsMath α) (pts : List (Pt α)) :
    (pts.length < 3 → convexHullMut jm pts = (pts, pts)) ∧
    (3 ≤ pts.length →
      (convexHullMut jm pts).1.Perm pts ∧
      (convexHullMut jm pts).1.getD 0 ⟨0, 0⟩ ∈ pts ∧
      ∀ q ∈ pts, lexLe ((convexHullMut jm pts).1.getD 0 ⟨0, 0⟩) q) := by
  constructor
  · intro h
    simp [convexHullMut, if_pos h]
  · intro h
    have hnlt : ¬ pts.length < 3 := by omega
    have hfst : (convexHullMut jm pts).1 = swapLow pts (lowestIdx pts) := by
      simp [convexHullMut, hnlt]
    have hlow := lowestIdx_lt pts (by omega)
    obtain ⟨-, hle0, hleL⟩ := lowestFold_spec pts ((List.range pts.length).drop 1) 0
    refine ⟨?_, ?_, ?_⟩
    · rw [hfst]
      exact swapLow_perm pts _ hlow
    · rw [hfst, swapLow_getD_zero pts _ hlow]
      rw [List.getD_eq_getElem?_getD]
      have hsome : pts[lowestIdx pts]? = some pts[lowestIdx pts] :=
        List.getElem?_eq_getElem hlow
      rw [hsome]
      exact List.getElem_mem hlow
    · intro q hq
      rw [hfst, swapLow_getD_zero pts _ hlow]
      obtain ⟨i, hi, rfl⟩ := List.mem_iff_getElem.mp hq
      have hgd : pts.getD i ⟨0, 0⟩ = pts[i] := List.getD_eq_getElem pts ⟨0, 0⟩ hi
      rw [← hgd]
      rcases Nat.eq_zero_or_pos i with h0 | h0
      · rw [h0]
        exact hle0
      · exact hleL i (mem_range_drop_one h0 hi)

/-- Concrete instantiation record for the opaque math functions. -/
def jmQ : JsMath ℚ := ⟨id, fun _ _ => 0, 0⟩

/-- Witness for C10: three points whose lowest (by y, then x) is the
middle one; the mutated array is a permutation of the input and starts
with that point. -/
theorem C10_witness :
    (convexHullMut jmQ [⟨3, 2⟩, ⟨1, 0⟩, ⟨2, 5⟩]).1.Perm
        [⟨3, 2⟩, ⟨1, 0⟩, ⟨2, 5⟩] ∧
      (convexHullMut jmQ [⟨3, 2⟩, ⟨1, 0⟩, ⟨2, 5⟩]).1.getD 0 ⟨0, 0⟩ ∈
        ([⟨3, 2⟩, ⟨1, 0⟩, ⟨2, 5⟩] : List (Pt ℚ)) :=
  ⟨((C10_theorem jmQ _).2 (by norm_num)).1,
    ((C10_theorem jmQ _).2 (by norm_num)).2.1⟩

/-! Polygon simplification (Douglas–Peucker) and the quadrilateral
selector. -/

/-- `Math.hypot(a, b)`, modelled as `sqrt(a² + b²)`. -/
def hypot (jm : JsMath α) (a b : α) : α := jm.sqrt (a * a + b * b)

/-- `pointToLineDistance`: distance from a point to the segment
`[lineStart, lineEnd]` (projection parameter clamped, `param = -1`
when the segment is degenerate). -/
def pointToLineDistance (jm : JsMath α) (point lineStart lineEnd : Pt α) : α :=
  let A := point.x - lineStart.x
  let B := point.y - lineStart.y
  let C := lineEnd.x - lineStart.x
  let D := lineEnd.y - lineStart.y
  let dot := A * C + B * D
  let lenSq := C * C + D * D
  let param := if lenSq ≠ 0 then dot / lenSq else -1
  let xx := if param < 0 then lineStart.x
    else if 1 < param then lineEnd.x else lineStart.x + param * C
  let yy := if param < 0 then lineStart.y
    else if 1 < param then lineEnd.y else lineStart.y + param * D
  hypot jm (point.x - xx) (point.y - yy)

/-- Cyclic perimeter of the hull (the `reduce` accumulating
`hypot(next - p)` with `next = hull[(i+1) % len]`). -/
def perimeter (jm : JsMath α) (hull : List (Pt α)) : α :=
  hull.enum.foldl
    (fun sum pi =>
      let p := pi.2
      let next := hull.getD ((pi.1 + 1) % hull.length) ⟨0, 0⟩
      sum + hypot jm (next.x - p.x) (next.y - p.y))
    0

/-- The inner scan of `douglasPeucker`: furthest point from the chord
`hull[start] – hull[end % len]` over indices `start+1 .. end-1`,
tracking `(maxDist, maxIdx)` with strict improvement. -/
def dpMax (jm : JsMath α) (hull : List (Pt α)) (start e : ℕ) : α × ℕ :=
  ((List.range (e - (start + 1))).map fun t => start + 1 + t).foldl
    (fun md i =>
      let dist := pointToLineDistance jm (hull.getD (i % hull.length) ⟨0, 0⟩)
        (hull.getD start ⟨0, 0⟩) (hull.getD (e % hull.length) ⟨0, 0⟩)
      if md.1 < dist then (dist, i) else md)
    (0, start)

/-- Recursive Douglas–Peucker over index spans, threading the `result`
accumulator.  The recursion is driven by a fuel parameter: every
recursive call splits the span strictly, so depth is bounded by the span
length and the initial fuel `hull.length + 1` is never exhausted. -/
def dpRec (jm : JsMath α) (hull : List (Pt α)) (eps total : α) :
    ℕ → ℕ → ℕ → List (Pt α) → List (Pt α)
  | 0, _, _, res => res
  | fuel + 1, start, e, res =>
    let md := dpMax jm hull start e
    if eps * total < md.1 then
      dpRec jm hull eps total fuel md.2 e
        (dpRec jm hull eps total fuel start md.2 res)
    else
      if hull.getD start ⟨0, 0⟩ ∈ res then res else res ++ [hull.getD start ⟨0, 0⟩]

/-- `approximatePolygon`: hulls with fewer than 4 vertices are returned
unsimplified; otherwise Douglas–Peucker over the full cyclic range with
threshold `epsilon × totalLength`. -/
def approximatePolygon (jm : JsMath α) (hull : List (Pt α)) (eps : α) :
    List (Pt α) :=
  if hull.length < 4 then hull
  else dpRec jm hull eps (perimeter jm hull) (hull.length + 1) 0 hull.length []

/-- Shoelace area of a 4-vertex polygon (`|Σ xᵢ·yᵢ₊₁ − xᵢ₊₁·yᵢ| / 2`). -/
def quadArea (poly : List (Pt α)) : α :=
  let p0 := poly.getD 0 ⟨0, 0⟩
  let p1 := poly.getD 1 ⟨0, 0⟩
  let p2 := poly.getD 2 ⟨0, 0⟩
  let p3 := poly.getD 3 ⟨0, 0⟩
  |(p0.x * p1.y - p1.x * p0.y) + (p1.x * p2.y - p2.x * p1.y) +
    (p2.x * p3.y - p3.x * p2.y) + (p3.x * p0.y - p0.x * p3.y)| / 2

/-- Hull plus simplification of one contour, `epsilon = 0.02`. -/
def candPolygon (jm : JsMath α) (c : List (Pt α)) : List (Pt α) :=
  approximatePolygon jm (convexHull jm c) (2 / 100)

/-- A contour qualifies when its simplified hull has exactly 4 vertices
and its area ratio lies strictly between 0.1 and 0.95. -/
def qualifies (jm : JsMath α) (w h : ℕ) (c : List (Pt α)) : Prop :=
  (candPolygon jm c).length = 4 ∧
    1 / 10 < quadArea (candPolygon jm c) / ((w : α) * h) ∧
    quadArea (candPolygon jm c) / ((w : α) * h) < 95 / 100

/-- The margin-inset fallback rectangle, `margin = 0.05 · min(w, h)`
applied to both axes. -/
def fallbackQuad (w h : ℕ) : List (Pt α) :=
  let margin := min (w : α) (h : α) * (5 / 100)
  [⟨margin, margin⟩, ⟨(w : α) - margin, margin⟩,
   ⟨(w : α) - margin, (h : α) - margin⟩, ⟨margin, (h : α) - margin⟩]

/-- One step of the best-candidate scan in `findBestQuadrilateral`. -/
def bestStep (jm : JsMath α) (w h : ℕ) (best : List (Pt α) × α)
    (contour : List (Pt α)) : List (Pt α) × α :=
  let polygon := candPolygon jm contour
  if polygon.length = 4 then
    let areaRatio := quadArea polygon / ((w : α) * h)
    if 1 / 10 < areaRatio ∧ areaRatio < 95 / 100 then
      if best.2 < areaRatio * 100 then (polygon, areaRatio * 100) else best
    else best
  else best

/-- `findBestQuadrilateral`: keep the highest-scoring qualifying
4-vertex candidate; fall back to the inset rectangle with score 30 when
none qualifies; order the corners and clamp the confidence at 95. -/
def findBestQuadrilateral (jm : JsMath α) (contours : List (List (Pt α)))
    (w h : ℕ) : List (Pt α) × α :=
  let best := contours.foldl (bestStep jm w h) ([], 0)
  let final := if best.1.length ≠ 4 then (fallbackQuad w h, (30 : α)) else best
  (orderCorners final.1, min final.2 95)

theorem bestStep_not_qualifies (jm : JsMath α) (w h : ℕ) (c : List (Pt α))
    (hnq : ¬ qualifies jm w h c) (best : List (Pt α) × α) :
    bestStep jm w h best c = best := by
  unfold bestStep qualifies at *
  by_cases h4 : (candPolygon jm c).length = 4
  · rw [if_pos h4]
    have : ¬ (1 / 10 < quadArea (candPolygon jm c) / ((w : α) * h) ∧
        quadArea (candPolygon jm c) / ((w : α) * h) < 95 / 100) := by
      intro hr
      exact hnq ⟨h4, hr⟩
    simp only [this, if_false, if_neg this]
  · rw [if_neg h4]

/-- When no contour qualifies, the scan state never leaves `([], 0)` and
the selector takes the fallback branch. -/
theorem findBestQuadrilateral_none (jm : JsMath α)
    (contours : List (List (Pt α))) (w h : ℕ)
    (hnq : ∀ c ∈ contours, ¬ qualifies jm w h c) :
    findBestQuadrilateral jm contours w h =
      (orderCorners (fallbackQuad w h), 30) := by
  unfold findBestQuadrilateral
  have hfold : contours.foldl (bestStep jm w h) ([], 0) = ([], 0) := by
    induction contours with
    | nil => rfl
    | cons c t ih =>
      rw [List.foldl_cons,
        bestStep_not_qualifies jm w h c (hnq c (List.mem_cons_self c t))]
      exact ih fun c hc => hnq c (List.mem_cons_of_mem _ hc)
  rw [hfold]
  norm_num

/-- Invariant of the scan: the running score is 0 with an empty
candidate, or lies in (10, 95) with a 4-vertex candidate. -/
theorem bestFold_invariant (jm : JsMath α) (w h : ℕ)
    (contours : List (List (Pt α))) :
    (contours.foldl (bestStep jm w h) ([], 0)).1 = [] ∧
        (contours.foldl (bestStep jm w h) ([], 0)).2 = 0 ∨
      (contours.foldl (bestStep jm w h) ([], 0)).1.length = 4 ∧
        10 < (contours.foldl (bestStep jm w h) ([], 0)).2 ∧
        (contours.foldl (bestStep jm w h) ([], 0)).2 < 95 := by
  suffices hgen : ∀ (l : List (List (Pt α))) (best : List (Pt α) × α),
      best.1 = [] ∧ best.2 = 0 ∨ best.1.length = 4 ∧ 10 < best.2 ∧ best.2 < 95 →
      (l.foldl (bestStep jm w h) best).1 = [] ∧ (l.foldl (bestStep jm w h) best).2 = 0 ∨
        (l.foldl (bestStep jm w h) best).1.length = 4 ∧
          10 < (l.foldl (bestStep jm w h) best).2 ∧
          (l.foldl (bestStep jm w h) best).2 < 95 by
    exact hgen contours ([], 0) (Or.inl ⟨rfl, rfl⟩)
  intro l
  induction l with
  | nil => intro best h; exact h
  | cons c t ih =>
    intro best hbest
    rw [List.foldl_cons]
    refine ih _ ?_
    unfold bestStep
    by_cases h4 : (candPolygon jm c).length = 4
    · rw [if_pos h4]
      by_cases hr : 1 / 10 < quadArea (candPolygon jm c) / ((w : α) * h) ∧
          quadArea (candPolygon jm c) / ((w : α) * h) < 95 / 100
      · rw [if_pos hr]
        by_cases hs : best.2 < quadArea (candPolygon jm c) / ((w : α) * h) * 100
        · rw [if_pos hs]
          right
          refine ⟨h4, ?_, ?_⟩
          · nlinarith [hr.1]
          · nlinarith [hr.2]
        · rw [if_neg hs]
          exact hbest
      · rw [if_neg hr]
        exact hbest
    · rw [if_neg h4]
      exact hbest

/-- Confidence bounds of the selector: `min(score, 95) ∈ [0, 95]`. -/
theorem findBestQuadrilateral_conf (jm : JsMath α)
    (contours : List (List (Pt α))) (w h : ℕ) :
    0 ≤ (findBestQuadrilateral jm contours w h).2 ∧
      (findBestQuadrilateral jm contours w h).2 ≤ 95 := by
  unfold findBestQuadrilateral
  simp only
  constructor
  · rcases bestFold_invariant jm w h contours with ⟨-, h0⟩ | ⟨-, h10, -⟩
    · split_ifs
      · norm_num
      · rw [h0]
        norm_num
    · split_ifs
      · norm_num
      · rw [le_min_iff]
        constructor
        · linarith
        · norm_num
  · exact min_le_right _ _

theorem orderCorners_fallback (w h : ℕ) (hw : 0 < w) (hh : 0 < h) :
    orderCorners (fallbackQuad (α := α) w h) = fallbackQuad w h := by
  have hw' : (0 : α) < w := by exact_mod_cast hw
  have hh' : (0 : α) < h := by exact_mod_cast hh
  set m : α := min (w : α) (h : α) * (5 / 100) with hm
  have hfb : fallbackQuad (α := α) w h =
      [⟨m, m⟩, ⟨(w : α) - m, m⟩, ⟨(w : α) - m, (h : α) - m⟩, ⟨m, (h : α) - m⟩] := rfl
  have hmw : 2 * m < (w : α) := by
    have h1 : m ≤ (w : α) * (5 / 100) := by
      rw [hm]
      apply mul_le_mul_of_nonneg_right (min_le_left _ _)
      norm_num
    nlinarith
  have hmh : 2 * m < (h : α) := by
    have h1 : m ≤ (h : α) * (5 / 100) := by
      rw [hm]
      apply mul_le_mul_of_nonneg_right (min_le_right _ _)
      norm_num
    nlinarith
  have c1 : sumLe (⟨m, m⟩ : Pt α) ⟨(w : α) - m, m⟩ = true := by
    simp only [sumLe, decide_eq_true_eq]
    linarith
  have c2 : sumLe (⟨(w : α) - m, (h : α) - m⟩ : Pt α) ⟨m, (h : α) - m⟩ = false := by
    simp only [sumLe, decide_eq_false_iff_not]
    intro hc
    linarith
  have c3 : sumLe (⟨m, m⟩ : Pt α) ⟨m, (h : α) - m⟩ = true := by
    simp only [sumLe, decide_eq_true_eq]
    linarith
  rw [hfb]
  simp only [orderCorners]
  rw [mergeSort_four, c1, c2]
  simp only [if_true, Bool.false_eq_true, if_false]
  rw [List.cons_merge_cons, c3]
  simp only [if_true]
  rcases le_or_lt (w : α) (h : α) with hwh | hwh
  · have c4 : sumLe (⟨(w : α) - m, m⟩ : Pt α) ⟨m, (h : α) - m⟩ = true := by
      simp only [sumLe, decide_eq_true_eq]
      linarith
    rw [List.cons_merge_cons, c4]
    simp only [if_true, List.nil_merge]
    simp only [List.getD_cons_zero, List.getD_cons_succ]
    rw [mergeSort_pair]
    have c5 : diffGe (⟨(w : α) - m, m⟩ : Pt α) ⟨m, (h : α) - m⟩ = true := by
      simp only [diffGe, decide_eq_true_eq]
      linarith
    rw [c5]
    simp only [if_true, List.getD_cons_zero, List.getD_cons_succ]
  · have c4 : sumLe (⟨(w : α) - m, m⟩ : Pt α) ⟨m, (h : α) - m⟩ = false := by
      simp only [sumLe, decide_eq_false_iff_not]
      intro hc
      linarith
    rw [List.cons_merge_cons, c4]
    simp only [Bool.false_eq_true, if_false]
    have c6 : sumLe (⟨(w : α) - m, m⟩ : Pt α) ⟨(w : α) - m, (h : α) - m⟩ = true := by
      simp only [sumLe, decide_eq_true_eq]
      linarith
    rw [List.cons_merge_cons, c6]
    simp only [if_true, List.nil_merge]
    simp only [List.getD_cons_zero, List.getD_cons_succ]
    rw [mergeSort_pair]
    have c7 : diffGe (⟨m, (h : α) - m⟩ : Pt α) ⟨(w : α) - m, m⟩ = false := by
      simp only [diffGe, decide_eq_false_iff_not]
      intro hc
      linarith
    rw [c7]
    simp only [Bool.false_eq_true, if_false, List.getD_cons_zero, List.getD_cons_succ]

/-! Homography estimation (`computeHomography` / `solveHomography`) and
the perspective resampler. -/

/-- The list `[i+1, ..., 7]` of inner loop indices. -/
def upFrom (i : ℕ) : List ℕ := (List.range (8 - (i + 1))).map fun t => i + 1 + t

/-- The outer loop indices `0 .. 7`. -/
def idx8 : List ℕ := [0, 1, 2, 3, 4, 5, 6, 7]

/-- Row `i` (0 ≤ i < 8) of the 8×9 DLT matrix of `computeHomography`:
rows `2c` and `2c+1` come from correspondence `c`. -/
def dltA (src dst : List (Pt α)) (i j : ℕ) : α :=
  let s := src.getD (i / 2) ⟨0, 0⟩
  let d := dst.getD (i / 2) ⟨0, 0⟩
  if i % 2 = 0 then
    [-s.x, -s.y, -1, 0, 0, 0, s.x * d.x, s.y * d.x, d.x].getD j 0
  else
    [0, 0, 0, -s.x, -s.y, -1, s.x * d.y, s.y * d.y, d.y].getD j 0

/-- Normal-equation matrix `AᵗA` over the first 8 columns of `A`,
accumulated in the source's `i` order. -/
def ataMat (A : ℕ → ℕ → α) (j k : ℕ) : α :=
  idx8.foldl (fun s i => s + A i j * A i k) 0

/-- Right-hand side `Aᵗb`, `b = −A[:,8]`. -/
def atbVec (A : ℕ → ℕ → α) (j : ℕ) : α :=
  idx8.foldl (fun s i => s + A i j * (-A i 8)) 0

/-- Partial-pivot selection: the row in `i .. 7` with the largest
absolute entry in column `i` (strict improvement, first maximum wins). -/
def pivotRow (M : ℕ → ℕ → α) (i : ℕ) : ℕ :=
  (upFrom i).foldl (fun maxRow k => if |M maxRow i| < |M k i| then k else maxRow) i

/-- Row swap of the partial pivoting step. -/
def swapRows (M : ℕ → ℕ → α) (r1 r2 : ℕ) : ℕ → ℕ → α :=
  fun r => if r = r1 then M r2 else if r = r2 then M r1 else M r

/-- The matching swap on the right-hand side. -/
def swapVec (v : ℕ → α) (r1 r2 : ℕ) : ℕ → α :=
  fun r => if r = r1 then v r2 else if r = r2 then v r1 else v r

/-- The row operation `AtA[k][j] -= c * AtA[i][j]` for `j = i .. 7`. -/
def rowSub (M : ℕ → ℕ → α) (k i : ℕ) (c : α) : ℕ → ℕ → α :=
  fun r =>
    if r = k then fun j => if i ≤ j ∧ j < 8 then M k j - c * M i j else M k j
    else M r

/-- The body of the inner elimination loop: subtract
`factor = AtA[k][i] / AtA[i][i]` times the pivot row from row `k`
(a no-op when the pivot entry is zero). -/
def innerStep (i : ℕ) (st2 : (ℕ → ℕ → α) × (ℕ → α)) (k : ℕ) : (ℕ → ℕ → α) × (ℕ → α) :=
  if st2.1 i i ≠ 0 then
    (rowSub st2.1 k i (st2.1 k i / st2.1 i i),
      fun r => if r = k then st2.2 k - st2.1 k i / st2.1 i i * st2.2 i else st2.2 r)
  else st2

/-- One outer step of the forward elimination: pick the pivot row, swap
it in, and (when the pivot entry is nonzero) eliminate column `i` from
the rows below. -/
def elimStep (st : (ℕ → ℕ → α) × (ℕ → α)) (i : ℕ) : (ℕ → ℕ → α) × (ℕ → α) :=
  let p := pivotRow st.1 i
  let M := swapRows st.1 i p
  let v := swapVec st.2 i p
  (upFrom i).foldl (innerStep i) (M, v)

/-- Gaussian elimination with partial pivoting over the 8×8 system. -/
def forwardElim (M : ℕ → ℕ → α) (v : ℕ → α) : (ℕ → ℕ → α) × (ℕ → α) :=
  idx8.foldl elimStep (M, v)

/-- One step of back substitution:
`x[i] = Atb[i] − Σ_{j>i} AtA[i][j]·x[j]`, divided by the diagonal only
when it is nonzero (the solver degrades silently on a singular system). -/
def bstep (M : ℕ → ℕ → α) (v : ℕ → α) (x : ℕ → α) (i : ℕ) : ℕ → α :=
  fun r =>
    if r = i then
      if M i i ≠ 0 then ((upFrom i).foldl (fun acc j => acc - M i j * x j) (v i)) / M i i
      else (upFrom i).foldl (fun acc j => acc - M i j * x j) (v i)
    else x r

/-- Back substitution, `i = 7 .. 0`. -/
def backSub (M : ℕ → ℕ → α) (v : ℕ → α) : ℕ → α :=
  ((List.range 8).reverse).foldl (bstep M v) (fun _ => 0)

/-- `solveHomography`: normal equations, elimination, back substitution,
and the fixed ninth coefficient 1. -/
def solveHomography (A : ℕ → ℕ → α) : List α :=
  let st := forwardElim (ataMat A) (atbVec A)
  let x := backSub st.1 st.2
  [x 0, x 1, x 2, x 3, x 4, x 5, x 6, x 7, 1]

/-- `computeHomography src dst`: solve the DLT system of the four
correspondences `src[i] ↦ dst[i]`. -/
def computeHomography (src dst : List (Pt α)) : List α :=
  solveHomography (dltA src dst)

/-- Destination rectangle `{(0,0),(W,0),(W,H),(0,H)}` of the resampler
(also the canonical source rectangle of the homography solve). -/
def dstRect (outW outH : ℕ) : List (Pt α) :=
  [⟨0, 0⟩, ⟨(outW : α), 0⟩, ⟨(outW : α), (outH : α)⟩, ⟨0, (outH : α)⟩]

/-- Checked read of the RGBA source buffer of length `4·w·h`; `none`
models an out-of-bounds typed-array access. -/
def srcRead (img : ImgData α) (i : ℕ) : Option α :=
  if i < 4 * img.width * img.height then some (img.data i) else none

/-- One destination pixel of `perspectiveTransform`: apply the inverse
homography, and when the 2×2 bilinear neighbourhood lies fully inside
the source, read and blend the four samples; otherwise `none` (the
output cell keeps its initialised 0).  `w = 0` makes the JS division
produce non-finite source coordinates, which always fail the
neighbourhood test, hence the explicit branch. -/
def perspPixel (img : ImgData α) (Hm : List α) (x y c : ℕ) : Option α :=
  let H := fun k => Hm.getD k 0
  let w := H 6 * (x : α) + H 7 * (y : α) + H 8
  if w = 0 then none
  else
    let srcX := (H 0 * (x : α) + H 1 * (y : α) + H 2) / w
    let srcY := (H 3 * (x : α) + H 4 * (y : α) + H 5) / w
    let x0 : ℤ := ⌊srcX⌋
    let y0 : ℤ := ⌊srcY⌋
    if 0 ≤ x0 ∧ x0 + 1 < (img.width : ℤ) ∧ 0 ≤ y0 ∧ y0 + 1 < (img.height : ℤ) then
      let xw := srcX - (x0 : α)
      let yw := srcY - (y0 : α)
      do
        let v00 ← srcRead img ((y0.toNat * img.width + x0.toNat) * 4 + c)
        let v01 ← srcRead img ((y0.toNat * img.width + (x0.toNat + 1)) * 4 + c)
        let v10 ← srcRead img (((y0.toNat + 1) * img.width + x0.toNat) * 4 + c)
        let v11 ← srcRead img (((y0.toNat + 1) * img.width + (x0.toNat + 1)) * 4 + c)
        pure (v00 * (1 - xw) * (1 - yw) + v01 * xw * (1 - yw) +
          v10 * (1 - xw) * yw + v11 * xw * yw)
    else none

/-- Output-raster coordinates in loop order (`y`, then `x`, then the
four channels). -/
def outCoords (outW outH : ℕ) : List (ℕ × ℕ × ℕ) :=
  (List.range outH).flatMap fun y =>
    (List.range outW).flatMap fun x => (List.range 4).map fun c => (x, y, c)

/-- `perspectiveTransform`: inverse-mapped bilinear resampling into a
fresh zero-initialised RGBA buffer; computed samples pass through the
`Uint8ClampedArray` store. -/
def perspectiveTransform (img : ImgData α) (corners : List (Pt α))
    (outW outH : ℕ) : ℕ → α :=
  let Hm := computeHomography (dstRect outW outH) corners
  writeLoop (outCoords outW outH)
    (fun t => (t.2.1 * outW + t.1) * 4 + t.2.2)
    (fun t => (perspPixel img Hm t.1 t.2.1 t.2.2).elim 0 u8Store)
    (fun _ => 0)

/-! Contour tracing and the top-level pipeline. -/

/-- The eight neighbour offsets pushed by `traceContour`, source order. -/
def traceDirs : List (ℤ × ℤ) :=
  [(0, 1), (1, 1), (1, 0), (1, -1), (0, -1), (-1, -1), (-1, 0), (-1, 1)]

/-- Stack-driven trace of one connected component.  The stack holds
coordinates top-first (JS `push`/`pop` at the array end); fuel bounds
the loop — each pixel is visited at most once, so `9·w·h + 9` pops
suffice and the fuel is never exhausted on the source's inputs. -/
def traceContour (edges : ℕ → α) (w h : ℕ) :
    ℕ → List (ℤ × ℤ) → (ℕ → Bool) → List (Pt α) → List (Pt α) × (ℕ → Bool)
  | 0, _, visited, contour => (contour, visited)
  | _ + 1, [], visited, contour => (contour, visited)
  | fuel + 1, (x, y) :: stack, visited, contour =>
    if x < 0 ∨ (w : ℤ) ≤ x ∨ y < 0 ∨ (h : ℤ) ≤ y then
      traceContour edges w h fuel stack visited contour
    else
      let idx := y.toNat * w + x.toNat
      if visited idx ∨ edges idx = 0 then
        traceContour edges w h fuel stack visited contour
      else
        traceContour edges w h fuel
          (traceDirs.foldl (fun s d => (x + d.1, y + d.2) :: s) stack)
          (fun j => if j = idx then true else visited j)
          (contour ++ [(⟨(x.toNat : α), (y.toNat : α)⟩ : Pt α)])

/-- Raster-scan coordinates (row-major) of the contour search. -/
def scanCoords (w h : ℕ) : List (ℕ × ℕ) :=
  (List.range h).flatMap fun y => (List.range w).map fun x => (x, y)

/-- `findContours`: seed a trace at every unvisited strong pixel in
raster order; components with more than 50 pixels become contours. -/
def findContours (edges : ℕ → α) (w h : ℕ) : List (List (Pt α)) :=
  ((scanCoords w h).foldl
    (fun (st : List (List (Pt α)) × (ℕ → Bool)) p =>
      if edges (p.2 * w + p.1) = 255 ∧ ¬ st.2 (p.2 * w + p.1) then
        let r := traceContour edges w h (9 * (w * h) + 9)
          [((p.1 : ℤ), (p.2 : ℤ))] st.2 []
        if 50 < r.1.length then (st.1 ++ [r.1], r.2) else (st.1, r.2)
      else st)
    ([], fun _ => false)).1

/-- Stages 1–6 composed: the contours of `processDocument`. -/
def pipeContours (jm : JsMath α) (img : ImgData α) : List (List (Pt α)) :=
  findContours (edgeMask jm img) img.width img.height

/-- The fixed warning text of `processDocument`. -/
def lowConfMsg : String := "Low confidence detection. Document edges may not be accurate."

/-- The warning field: present exactly when the confidence is below 50. -/
def mkWarning (confidence : α) : Option String :=
  if confidence < 50 then some lowConfMsg else none

/-- The `ProcessingResult` of the core pipeline.  The base64 encoding of
the output raster (`toDataURL`) is external; the raw output raster and
its dimensions stand in for `processedImageData`. -/
structure ProcResult (α : Type) where
  processed : ℕ → α
  outWidth : ℕ
  outHeight : ℕ
  corners : List (Pt α)
  confidence : α
  warning : Option String

/-- Steps 1–9 of `processDocument` on a decoded raster. -/
def processCore (jm : JsMath α) (img : ImgData α) : ProcResult α :=
  let bq := findBestQuadrilateral jm (pipeContours jm img) img.width img.height
  let corners := bq.1
  let confidence := bq.2
  let c0 := corners.getD 0 ⟨0, 0⟩
  let c1 := corners.getD 1 ⟨0, 0⟩
  let c2 := corners.getD 2 ⟨0, 0⟩
  let c3 := corners.getD 3 ⟨0, 0⟩
  let width1 := hypot jm (c1.x - c0.x) (c1.y - c0.y)
  let width2 := hypot jm (c2.x - c3.x) (c2.y - c3.y)
  let height1 := hypot jm (c3.x - c0.x) (c3.y - c0.y)
  let height2 := hypot jm (c2.x - c1.x) (c2.y - c1.y)
  let outputWidth := (jsRound (max width1 width2)).toNat
  let outputHeight := (jsRound (max height1 height2)).toNat
  { processed := perspectiveTransform img corners outputWidth outputHeight
    outWidth := outputWidth
    outHeight := outputHeight
    corners := corners
    confidence := confidence
    warning := mkWarning confidence }

/-- The error taxonomy of the language-agnostic contract (§6/§7). -/
inductive ProcError where
  | invalidInput

/-- A raw raster as handed over by the external decoder: declared
dimensions plus the actual byte buffer. -/
structure RawRaster (α : Type) where
  width : ℕ
  height : ℕ
  buf : List α

/-- Modelled from the spec: the input-validation contract of
`rectifyDocument` (§6).  The TypeScript core contains no explicit
validation code — a malformed raster cannot reach it through the browser
canvas decode path, where a zero-area `getImageData` throws — so the
`InvalidInput` condition on a zero-area raster or a buffer/dimension
mismatch is taken from the spec's interface contract; the accepted path
is the `processDocument` core itself. -/
def rectifyDocument (jm : JsMath α) (r : RawRaster α) :
    Except ProcError (ProcResult α) :=
  if r.width * r.height = 0 ∨ r.buf.length ≠ 4 * r.width * r.height then
    .error .invalidInput
  else
    .ok (processCore jm ⟨r.width, r.height, fun i => r.buf.getD i 0⟩)

/-- C2: the confidence of every processed raster lies in [0, 95] — the
selector clamps with `min(score, 95)` and every score branch is
nonnegative — and the warning is present exactly when the confidence is
below 50. -/
theorem C2_theorem (jm : JsMath α) (img : ImgData α) :
    0 ≤ (processCore jm img).confidence ∧ (processCore jm img).confidence ≤ 95 ∧
      ((processCore jm img).warning.isSome ↔ (processCore jm img).confidence < 50) := by
  have hconf : (processCore jm img).confidence =
      (findBestQuadrilateral jm (pipeContours jm img) img.width img.height).2 := rfl
  have hwarn : (processCore jm img).warning =
      mkWarning (processCore jm img).confidence := rfl
  obtain ⟨h0, h95⟩ :=
    findBestQuadrilateral_conf jm (pipeContours jm img) img.width img.height
  refine ⟨hconf ▸ h0, hconf ▸ h95, ?_⟩
  rw [hwarn]
  unfold mkWarning
  split_ifs with hc
  · simpa using hc
  · simpa using hc

/-- C1 (amended): on an all-black raster both adaptive thresholds are 0,
so the edge classifier marks every pixel strong (255) — the mask is
all-255, not all-zero; whenever the selector receives contours none of
which qualifies, it falls back to the margin-inset rectangle with
confidence exactly 30, which for a 400×300 frame has corners
(15,15), (385,15), (385,285), (15,285) — margin 15 on both axes, not 20
on the x axis — and 30 < 50 produces the warning. -/
theorem C1_theorem (jm : JsMath α) (hs : jm.sqrt 0 = 0) (w h : ℕ) :
    (∀ i < w * h, edgeMask jm (blackImg (α := α) w h) i = 255) ∧
    (∀ contours : List (List (Pt α)),
      (∀ c ∈ contours, ¬ qualifies jm 400 300 c) →
      findBestQuadrilateral jm contours 400 300 =
        ([⟨15, 15⟩, ⟨385, 15⟩, ⟨385, 285⟩, ⟨15, 285⟩], 30)) ∧
    mkWarning (30 : α) = some lowConfMsg := by
  refine ⟨?_, ?_, ?_⟩
  · intro i hi
    rw [edgeMask_black jm w h hs i, if_pos hi]
  · intro contours hnq
    rw [findBestQuadrilateral_none jm contours 400 300 hnq]
    rw [orderCorners_fallback 400 300 (by norm_num) (by norm_num)]
    have hfb : fallbackQuad (α := α) 400 300 =
        [⟨15, 15⟩, ⟨385, 15⟩, ⟨385, 285⟩, ⟨15, 285⟩] := by
      unfold fallbackQuad
      have hmin : min ((400 : ℕ) : α) ((300 : ℕ) : α) = 300 := by
        rw [min_eq_right]
        · norm_num
        · norm_num
      rw [hmin]
      norm_num
    rw [hfb]
  · unfold mkWarning
    rw [if_pos (by norm_num)]

/-- Counterexample for C1 as stated: the edge mask of the all-black 5×5
raster holds 255 at pixel 0 — for a uniform input the maximum gradient
magnitude is 0, both adaptive thresholds are 0, and `edges[i] >= 0`
marks every pixel strong — so the mask is not "entirely zero". -/
theorem C1_counterexample :
    edgeMask jmQ (blackImg 5 5) 0 = 255 ∧ (255 : ℚ) ≠ 0 := by
  constructor
  · rw [edgeMask_black jmQ 5 5 rfl 0]
    norm_num
  · norm_num

/-- Witness for C1: the all-black mask value at a concrete pixel, and
the fallback output of the selector on an empty contour list. -/
theorem C1_witness :
    edgeMask jmQ (blackImg 7 7) 10 = 255 ∧
      findBestQuadrilateral jmQ [] 400 300 =
        ([⟨15, 15⟩, ⟨385, 15⟩, ⟨385, 285⟩, ⟨15, 285⟩], 30) ∧
      mkWarning (30 : ℚ) = some lowConfMsg :=
  ⟨(C1_theorem jmQ rfl 7 7).1 10 (by norm_num),
    (C1_theorem jmQ rfl 7 7).2.1 [] (by simp),
    (C1_theorem jmQ rfl 7 7).2.2⟩

/-- C3: `rectifyDocument` rejects exactly the malformed rasters
(zero area or buffer/dimension mismatch) with `InvalidInput`; on every
well-formed raster it returns a `ProcessingResult`, and when no contour
yields a qualifying quadrilateral the result is the margin-inset
fallback rectangle with confidence 30 and the low-confidence warning —
"no document found" is never an error. -/
theorem C3_theorem (jm : JsMath α) (r : RawRaster α) :
    ((∃ res, rectifyDocument jm r = .ok res) ↔
      ¬ (r.width * r.height = 0 ∨ r.buf.length ≠ 4 * r.width * r.height)) ∧
    (∀ res, rectifyDocument jm r = .ok res →
      (∀ c ∈ pipeContours jm ⟨r.width, r.height, fun i => r.buf.getD i 0⟩,
        ¬ qualifies jm r.width r.height c) →
      res.corners = fallbackQuad r.width r.height ∧
        res.confidence = 30 ∧ res.warning = some lowConfMsg) := by
  constructor
  · constructor
    · rintro ⟨res, hres⟩ hbad
      unfold rectifyDocument at hres
      rw [if_pos hbad] at hres
      cases hres
    · intro hgood
      refine ⟨processCore jm ⟨r.width, r.height, fun i => r.buf.getD i 0⟩, ?_⟩
      unfold rectifyDocument
      rw [if_neg hgood]
  · intro res hres hnq
    by_cases hbad : r.width * r.height = 0 ∨ r.buf.length ≠ 4 * r.width * r.height
    · unfold rectifyDocument at hres
      rw [if_pos hbad] at hres
      cases hres
    · unfold rectifyDocument at hres
      rw [if_neg hbad] at hres
      have hres' := Except.ok.inj hres
      subst hres'
      push_neg at hbad
      have hw : 0 < r.width := by
        rcases Nat.eq_zero_or_pos r.width with h0 | h0
        · exfalso
          apply hbad.1
          rw [h0, Nat.zero_mul]
        · exact h0
      have hh : 0 < r.height := by
        rcases Nat.eq_zero_or_pos r.height with h0 | h0
        · exfalso
          apply hbad.1
          rw [h0, Nat.mul_zero]
        · exact h0
      have hcorners : (processCore jm
          ⟨r.width, r.height, fun i => r.buf.getD i 0⟩).corners =
          (findBestQuadrilateral jm
            (pipeContours jm ⟨r.width, r.height, fun i => r.buf.getD i 0⟩)
            r.width r.height).1 := rfl
      have hconf : (processCore jm
          ⟨r.width, r.height, fun i => r.buf.getD i 0⟩).confidence =
          (findBestQuadrilateral jm
            (pipeContours jm ⟨r.width, r.height, fun i => r.buf.getD i 0⟩)
            r.width r.height).2 := rfl
      have hsel := findBestQuadrilateral_none jm
        (pipeContours jm ⟨r.width, r.height, fun i => r.buf.getD i 0⟩)
        r.width r.height hnq
      refine ⟨?_, ?_, ?_⟩
      · rw [hcorners, hsel]
        exact orderCorners_fallback r.width r.height hw hh
      · rw [hconf, hsel]
      · have : (processCore jm
            ⟨r.width, r.height, fun i => r.buf.getD i 0⟩).warning =
            mkWarning (findBestQuadrilateral jm
              (pipeContours jm ⟨r.width, r.height, fun i => r.buf.getD i 0⟩)
              r.width r.height).2 := rfl
        rw [this, hsel]
        unfold mkWarning
        rw [if_pos (by norm_num)]

/-- Number of unvisited cells below `n`. -/
def unvisitedCount (visited : ℕ → Bool) (n : ℕ) : ℕ :=
  ((Finset.range n).filter fun i => visited i = false).card

theorem unvisitedCount_update (visited : ℕ → Bool) (n idx : ℕ)
    (hidx : idx < n) (hfalse : visited idx = false) :
    unvisitedCount (fun j => if j = idx then true else visited j) n + 1 =
      unvisitedCount visited n := by
  unfold unvisitedCount
  have hset : ((Finset.range n).filter fun i =>
      (fun j => if j = idx then true else visited j) i = false) =
      ((Finset.range n).filter fun i => visited i = false).erase idx := by
    ext i
    simp only [Finset.mem_filter, Finset.mem_erase, Finset.mem_range]
    constructor
    · intro ⟨hin, hv⟩
      by_cases hi : i = idx
      · rw [if_pos hi] at hv
        cases hv
      · rw [if_neg hi] at hv
        exact ⟨hi, hin, hv⟩
    · intro ⟨hne, hin, hv⟩
      exact ⟨hin, by rw [if_neg hne]; exact hv⟩
  rw [hset]
  have hmem : idx ∈ (Finset.range n).filter fun i => visited i = false :=
    Finset.mem_filter.mpr ⟨Finset.mem_range.mpr hidx, hfalse⟩
  rw [Finset.card_erase_of_mem hmem]
  have : 1 ≤ ((Finset.range n).filter fun i => visited i = false).card :=
    Finset.card_pos.mpr ⟨idx, hmem⟩
  omega

/-- A trace can grow the contour by at most one point per unvisited cell
of the raster. -/
theorem traceContour_length_le (edges : ℕ → α) (w h : ℕ) :
    ∀ (fuel : ℕ) (stack : List (ℤ × ℤ)) (visited : ℕ → Bool)
      (contour : List (Pt α)),
      (traceContour edges w h fuel stack visited contour).1.length ≤
        contour.length + unvisitedCount visited (w * h) := by
  intro fuel
  induction fuel with
  | zero =>
    intro stack visited contour
    simp [traceContour]
  | succ fuel ih =>
    intro stack visited contour
    match stack with
    | [] => simp [traceContour]
    | (x, y) :: stack =>
      rw [traceContour]
      by_cases hb : x < 0 ∨ (w : ℤ) ≤ x ∨ y < 0 ∨ (h : ℤ) ≤ y
      · rw [if_pos hb]
        exact ih stack visited contour
      · rw [if_neg hb]
        push_neg at hb
        by_cases hv : visited (y.toNat * w + x.toNat) ∨ edges (y.toNat * w + x.toNat) = 0
        · rw [if_pos hv]
          exact ih stack visited contour
        · rw [if_neg hv]
          push_neg at hv
          have hxw : x.toNat < w := by omega
          have hyh : y.toNat < h := by omega
          have hwpos : 0 < w := by omega
          have hidx : y.toNat * w + x.toNat < w * h := by
            have h1 : y.toNat * w + x.toNat < (y.toNat + 1) * w := by
              rw [Nat.add_mul, Nat.one_mul]
              omega
            have h2 : (y.toNat + 1) * w ≤ h * w := Nat.mul_le_mul_right w (by omega)
            calc y.toNat * w + x.toNat < (y.toNat + 1) * w := h1
              _ ≤ h * w := h2
              _ = w * h := Nat.mul_comm h w
          have hfalse : visited (y.toNat * w + x.toNat) = false := by
            simpa using hv.1
          have hcount := unvisitedCount_update visited (w * h)
            (y.toNat * w + x.toNat) hidx hfalse
          have := ih (traceDirs.foldl (fun s d => (x + d.1, y + d.2) :: s) stack)
            (fun j => if j = y.toNat * w + x.toNat then true else visited j)
            (contour ++ [(⟨(x.toNat : α), (y.toNat : α)⟩ : Pt α)])
          calc (traceContour edges w h fuel
              (traceDirs.foldl (fun s d => (x + d.1, y + d.2) :: s) stack)
              (fun j => if j = y.toNat * w + x.toNat then true else visited j)
              (contour ++ [(⟨(x.toNat : α), (y.toNat : α)⟩ : Pt α)])).1.length ≤
              (contour ++ [(⟨(x.toNat : α), (y.toNat : α)⟩ : Pt α)]).length +
                unvisitedCount
                  (fun j => if j = y.toNat * w + x.toNat then true else visited j)
                  (w * h) := this
            _ = contour.length + unvisitedCount visited (w * h) := by
              rw [List.length_append]
              simp only [List.length_cons, List.length_nil]
              omega

/-- On a raster of at most 50 pixels every component is filtered out, so
there are no contours. -/
theorem findContours_small (edges : ℕ → α) (w h : ℕ) (hwh : w * h ≤ 50) :
    findContours edges w h = [] := by
  unfold findContours
  suffices hgen : ∀ (l : List (ℕ × ℕ)) (visited : ℕ → Bool),
      (l.foldl
        (fun (st : List (List (Pt α)) × (ℕ → Bool)) p =>
          if edges (p.2 * w + p.1) = 255 ∧ ¬ st.2 (p.2 * w + p.1) then
            let r := traceContour edges w h (9 * (w * h) + 9)
              [((p.1 : ℤ), (p.2 : ℤ))] st.2 []
            if 50 < r.1.length then (st.1 ++ [r.1], r.2) else (st.1, r.2)
          else st)
        ([], visited)).1 = [] by
    exact hgen (scanCoords w h) _
  intro l
  induction l with
  | nil => intro visited; rfl
  | cons p t ih =>
    intro visited
    rw [List.foldl_cons]
    by_cases hc : edges (p.2 * w + p.1) = 255 ∧ ¬ visited (p.2 * w + p.1)
    · rw [if_pos hc]
      have hlen := traceContour_length_le edges w h (9 * (w * h) + 9)
        [((p.1 : ℤ), (p.2 : ℤ))] visited []
      have hcount : unvisitedCount visited (w * h) ≤ 50 := by
        unfold unvisitedCount
        calc ((Finset.range (w * h)).filter fun i => visited i = false).card ≤
            (Finset.range (w * h)).card := Finset.card_filter_le _ _
          _ = w * h := Finset.card_range _
          _ ≤ 50 := hwh
      have hnot : ¬ 50 < (traceContour edges w h (9 * (w * h) + 9)
          [((p.1 : ℤ), (p.2 : ℤ))] visited []).1.length := by
        simp only [List.length_nil, Nat.zero_add] at hlen
        omega
      simp only [if_neg hnot]
      exact ih _
    · rw [if_neg hc]
      exact ih _

/-- Witness for C3: a well-formed all-black 3×3 raster (36-byte buffer);
no 9-pixel component can pass the >50 filter, so the result is the inset
fallback with confidence 30 and the warning. -/
theorem C3_witness :
    (processCore jmQ ⟨3, 3, fun i => (List.replicate 36 (0 : ℚ)).getD i 0⟩).corners =
        fallbackQuad 3 3 ∧
      (processCore jmQ ⟨3, 3, fun i =>
        (List.replicate 36 (0 : ℚ)).getD i 0⟩).confidence = 30 ∧
      (processCore jmQ ⟨3, 3, fun i =>
        (List.replicate 36 (0 : ℚ)).getD i 0⟩).warning = some lowConfMsg := by
  have hok : rectifyDocument jmQ ⟨3, 3, List.replicate 36 0⟩ =
      .ok (processCore jmQ ⟨3, 3, fun i => (List.replicate 36 (0 : ℚ)).getD i 0⟩) := by
    unfold rectifyDocument
    rw [if_neg (by norm_num)]
  refine (C3_theorem jmQ ⟨3, 3, List.replicate 36 0⟩).2 _ hok ?_
  intro c hc
  simp only [pipeContours] at hc
  rw [findContours_small _ 3 3 (by norm_num)] at hc
  cases hc

/-! Per-pixel safety of the perspective resampler (C9). -/

/-- The homogeneous denominator `w = H[6]x + H[7]y + H[8]`. -/
def wOf (Hm : List α) (x y : ℕ) : α :=
  Hm.getD 6 0 * (x : α) + Hm.getD 7 0 * (y : α) + Hm.getD 8 0

/-- Continuous source x-coordinate `(H[0]x + H[1]y + H[2]) / w`. -/
def srcXof (Hm : List α) (x y : ℕ) : α :=
  (Hm.getD 0 0 * (x : α) + Hm.getD 1 0 * (y : α) + Hm.getD 2 0) / wOf Hm x y

/-- Continuous source y-coordinate `(H[3]x + H[4]y + H[5]) / w`. -/
def srcYof (Hm : List α) (x y : ℕ) : α :=
  (Hm.getD 3 0 * (x : α) + Hm.getD 4 0 * (y : α) + Hm.getD 5 0) / wOf Hm x y

/-- The sampling guard of the resampler: finite source coordinates whose
2×2 bilinear neighbourhood lies fully inside the source raster. -/
def perspGuard (img : ImgData α) (Hm : List α) (x y : ℕ) : Prop :=
  wOf Hm x y ≠ 0 ∧
    0 ≤ ⌊srcXof Hm x y⌋ ∧ ⌊srcXof Hm x y⌋ + 1 < (img.width : ℤ) ∧
    0 ≤ ⌊srcYof Hm x y⌋ ∧ ⌊srcYof Hm x y⌋ + 1 < (img.height : ℤ)

theorem wOf_eq (Hm : List α) (x y : ℕ) :
    Hm.getD 6 0 * (x : α) + Hm.getD 7 0 * (y : α) + Hm.getD 8 0 = wOf Hm x y := rfl

theorem srcXof_eq (Hm : List α) (x y : ℕ) :
    (Hm.getD 0 0 * (x : α) + Hm.getD 1 0 * (y : α) + Hm.getD 2 0) / wOf Hm x y =
      srcXof Hm x y := rfl

theorem srcYof_eq (Hm : List α) (x y : ℕ) :
    (Hm.getD 3 0 * (x : α) + Hm.getD 4 0 * (y : α) + Hm.getD 5 0) / wOf Hm x y =
      srcYof Hm x y := rfl

theorem perspPixel_none (img : ImgData α) (Hm : List α) (x y c : ℕ)
    (hg : ¬ perspGuard img Hm x y) : perspPixel img Hm x y c = none := by
  unfold perspGuard at hg
  simp only [perspPixel]
  simp only [wOf_eq]
  simp only [srcXof_eq, srcYof_eq]
  by_cases hw : wOf Hm x y = 0
  · rw [if_pos hw]
  · rw [if_neg hw]
    rw [if_neg]
    intro ⟨h1, h2, h3, h4⟩
    exact hg ⟨hw, h1, h2, h3, h4⟩

/-- Inside the guard, all four bilinear sample indices are in bounds and
the pixel is the blended value of the four in-range source reads. -/
theorem perspPixel_some (img : ImgData α) (Hm : List α) (x y c : ℕ) (hc : c < 4)
    (hg : perspGuard img Hm x y) :
    perspPixel img Hm x y c =
      some (img.data ((⌊srcYof Hm x y⌋.toNat * img.width + ⌊srcXof Hm x y⌋.toNat) * 4 + c) *
          (1 - (srcXof Hm x y - (⌊srcXof Hm x y⌋ : α))) *
          (1 - (srcYof Hm x y - (⌊srcYof Hm x y⌋ : α))) +
        img.data ((⌊srcYof Hm x y⌋.toNat * img.width + (⌊srcXof Hm x y⌋.toNat + 1)) * 4 + c) *
          (srcXof Hm x y - (⌊srcXof Hm x y⌋ : α)) *
          (1 - (srcYof Hm x y - (⌊srcYof Hm x y⌋ : α))) +
        img.data (((⌊srcYof Hm x y⌋.toNat + 1) * img.width + ⌊srcXof Hm x y⌋.toNat) * 4 + c) *
          (1 - (srcXof Hm x y - (⌊srcXof Hm x y⌋ : α))) *
          (srcYof Hm x y - (⌊srcYof Hm x y⌋ : α)) +
        img.data (((⌊srcYof Hm x y⌋.toNat + 1) * img.width + (⌊srcXof Hm x y⌋.toNat + 1)) * 4 + c) *
          (srcXof Hm x y - (⌊srcXof Hm x y⌋ : α)) *
          (srcYof Hm x y - (⌊srcYof Hm x y⌋ : α))) := by
  obtain ⟨hw, h1, h2, h3, h4⟩ := hg
  have hwid : 0 < img.width := by omega
  have hhei : 0 < img.height := by omega
  have hx1 : ⌊srcXof Hm x y⌋.toNat + 1 < img.width := by omega
  have hy1 : ⌊srcYof Hm x y⌋.toNat + 1 < img.height := by omega
  have hread : ∀ xi yi, xi < img.width → yi < img.height →
      srcRead img ((yi * img.width + xi) * 4 + c) =
        some (img.data ((yi * img.width + xi) * 4 + c)) := by
    intro xi yi hxi hyi
    unfold srcRead
    rw [if_pos]
    have hlin : yi * img.width + xi < img.width * img.height := by
      have hb : yi * img.width + xi < (yi + 1) * img.width := by
        rw [Nat.add_mul, Nat.one_mul]
        omega
      calc yi * img.width + xi < (yi + 1) * img.width := hb
        _ ≤ img.height * img.width := Nat.mul_le_mul_right _ (by omega)
        _ = img.width * img.height := Nat.mul_comm _ _
    calc (yi * img.width + xi) * 4 + c < (yi * img.width + xi) * 4 + 4 := by omega
      _ = (yi * img.width + xi + 1) * 4 := by ring
      _ ≤ (img.width * img.height) * 4 := by
          exact Nat.mul_le_mul_right 4 (by omega)
      _ = 4 * img.width * img.height := by ring
  simp only [perspPixel]
  simp only [wOf_eq]
  simp only [srcXof_eq, srcYof_eq]
  rw [if_neg hw]
  rw [if_pos ⟨h1, h2, h3, h4⟩]
  rw [hread _ _ (by omega) (by omega), hread _ _ hx1 (by omega),
    hread _ _ (by omega) hy1, hread _ _ hx1 hy1]
  rfl

theorem outCoords_mem {outW outH : ℕ} {t : ℕ × ℕ × ℕ} :
    t ∈ outCoords outW outH ↔ t.1 < outW ∧ t.2.1 < outH ∧ t.2.2 < 4 := by
  unfold outCoords
  simp only [List.mem_flatMap, List.mem_map, List.mem_range]
  constructor
  · rintro ⟨y, hy, x, hx, c, hcc, rfl⟩
    exact ⟨hx, hy, hcc⟩
  · intro ⟨hx, hy, hcc⟩
    exact ⟨t.2.1, hy, t.1, hx, t.2.2, hcc, by
      cases t with
      | mk a bc =>
        cases bc with
        | mk b c => rfl⟩

/-- The destination cell `(y·outW + x)·4 + c` of the output raster holds
the clamped-stored sample, or 0 when the pixel was skipped. -/
theorem perspectiveTransform_pixel (img : ImgData α) (corners : List (Pt α))
    (outW outH x y c : ℕ) (hx : x < outW) (hy : y < outH) (hc : c < 4) :
    perspectiveTransform img corners outW outH ((y * outW + x) * 4 + c) =
      (perspPixel img (computeHomography (dstRect outW outH) corners) x y c).elim
        0 u8Store := by
  unfold perspectiveTransform
  refine writeLoop_mem _ _ _ _ _ _ ⟨(x, y, c), outCoords_mem.mpr ⟨hx, hy, hc⟩, rfl⟩ ?_
  intro q hq hkq
  obtain ⟨hqx, hqy, hqc⟩ := outCoords_mem.mp hq
  have hcq : q.2.2 = c ∧ q.2.1 * outW + q.1 = y * outW + x := by
    set A := q.2.1 * outW + q.1 with hA
    set B := y * outW + x with hB
    omega
  have hxy : q.1 = x ∧ q.2.1 = y := by
    have := lix_inj (w := outW) (p := (q.1, q.2.1)) (q := (x, y)) hqx hx
      (by unfold lix; simpa using hcq.2)
    have h1 : q.1 = x := congrArg Prod.fst this
    have h2 : q.2.1 = y := congrArg Prod.snd this
    exact ⟨h1, h2⟩
  rcases q with ⟨qx, qy, qc⟩
  simp only at hxy hcq
  rw [hxy.1, hxy.2, hcq.1]

/-- C9: the resampler is per-pixel total and safe — a destination pixel
is sampled iff the homogeneous denominator is nonzero and the 2×2
neighbourhood around the floored source coordinates lies fully inside
the source raster (so division by zero `w` and out-of-bounds
neighbourhoods only skip that pixel); when sampled, the value is the
bilinear blend of four in-bounds source reads, and when skipped the
output cell keeps its initialised 0. -/
theorem C9_theorem (img : ImgData α) (corners : List (Pt α))
    (outW outH x y c : ℕ) (hx : x < outW) (hy : y < outH) (hc : c < 4) :
    ((perspPixel img (computeHomography (dstRect outW outH) corners) x y c).isSome ↔
      perspGuard img (computeHomography (dstRect outW outH) corners) x y) ∧
    (¬ perspGuard img (computeHomography (dstRect outW outH) corners) x y →
      perspectiveTransform img corners outW outH ((y * outW + x) * 4 + c) = 0) ∧
    (perspGuard img (computeHomography (dstRect outW outH) corners) x y →
      ∃ v, perspPixel img (computeHomography (dstRect outW outH) corners) x y c = some v ∧
        perspectiveTransform img corners outW outH ((y * outW + x) * 4 + c) =
          u8Store v) := by
  refine ⟨?_, ?_, ?_⟩
  · constructor
    · intro hsome
      by_contra hg
      rw [perspPixel_none img _ x y c hg] at hsome
      simp at hsome
    · intro hg
      rw [perspPixel_some img _ x y c hc hg]
      rfl
  · intro hg
    rw [perspectiveTransform_pixel img corners outW outH x y c hx hy hc,
      perspPixel_none img _ x y c hg]
    rfl
  · intro hg
    refine ⟨_, perspPixel_some img _ x y c hc hg, ?_⟩
    rw [perspectiveTransform_pixel img corners outW outH x y c hx hy hc,
      perspPixel_some img _ x y c hc hg]
    rfl

/-- Witness for C9: on a 1×1 source no 2×2 neighbourhood fits, so the
guard fails at every destination pixel and the output cell stays 0. -/
theorem C9_witness :
    perspectiveTransform (⟨1, 1, fun _ => (255 : ℚ)⟩ : ImgData ℚ)
      (dstRect 1 1) 1 1 ((0 * 1 + 0) * 4 + 0) = 0 := by
  refine (C9_theorem (⟨1, 1, fun _ => (255 : ℚ)⟩ : ImgData ℚ) (dstRect 1 1)
    1 1 0 0 0 (by norm_num) (by norm_num) (by norm_num)).2.1 ?_
  intro hg
  obtain ⟨hw, h1, h2, h3, h4⟩ := hg
  norm_num at h2
  omega

/-! Correctness of the homography solver.  The development relates the
imperative folds to `Finset` sums, proves that the elimination preserves
the solution set and reaches an upper-triangular system with nonzero
diagonal whenever the original system has a trivial kernel, and that
back substitution then reproduces the unique solution. -/

/-- Row–vector product over the 8 columns. -/
def dot8 (M : ℕ → ℕ → α) (u : ℕ → α) (i : ℕ) : α :=
  ∑ j ∈ Finset.range 8, M i j * u j

theorem mem_upFrom {i k : ℕ} : k ∈ upFrom i ↔ i + 1 ≤ k ∧ k < 8 := by
  unfold upFrom
  simp only [List.mem_map, List.mem_range]
  constructor
  · rintro ⟨t, ht, rfl⟩
    omega
  · intro ⟨h1, h2⟩
    exact ⟨k - (i + 1), by omega, by omega⟩

theorem foldl_add_eq_sum (l : List ℕ) (f : ℕ → α) (init : α) :
    l.foldl (fun acc j => acc + f j) init = init + (l.map f).sum := by
  induction l generalizing init with
  | nil => simp
  | cons a t ih =>
    rw [List.foldl_cons, ih, List.map_cons, List.sum_cons]
    ring

theorem foldl_sub_eq_sum (l : List ℕ) (f : ℕ → α) (init : α) :
    l.foldl (fun acc j => acc - f j) init = init - (l.map f).sum := by
  induction l generalizing init with
  | nil => simp
  | cons a t ih =>
    rw [List.foldl_cons, ih, List.map_cons, List.sum_cons]
    ring

theorem sum_map_list_range (n : ℕ) (f : ℕ → α) :
    ((List.range n).map f).sum = ∑ t ∈ Finset.range n, f t := by
  induction n with
  | zero => simp
  | succ n ih =>
    rw [List.range_succ, List.map_append, List.sum_append, Finset.sum_range_succ, ih]
    simp

theorem idx8_foldl_eq_sum (f : ℕ → α) (init : α) :
    idx8.foldl (fun acc j => acc + f j) init = init + ∑ j ∈ Finset.range 8, f j := by
  have h : idx8 = List.range 8 := by rfl
  rw [h, foldl_add_eq_sum, sum_map_list_range]

theorem upFrom_foldl_sub (i : ℕ) (f : ℕ → α) (init : α) :
    (upFrom i).foldl (fun acc j => acc - f j) init =
      init - ∑ j ∈ Finset.Ico (i + 1) 8, f j := by
  rw [foldl_sub_eq_sum]
  unfold upFrom
  rw [List.map_map, sum_map_list_range, Finset.sum_Ico_eq_sum_range]
  simp only [Function.comp]

theorem ataMat_eq_sum (A : ℕ → ℕ → α) (j k : ℕ) :
    ataMat A j k = ∑ i ∈ Finset.range 8, A i j * A i k := by
  unfold ataMat
  rw [idx8_foldl_eq_sum (fun i => A i j * A i k) 0, zero_add]

theorem atbVec_eq_sum (A : ℕ → ℕ → α) (j : ℕ) :
    atbVec A j = ∑ i ∈ Finset.range 8, A i j * (-A i 8) := by
  unfold atbVec
  rw [idx8_foldl_eq_sum (fun i => A i j * (-A i 8)) 0, zero_add]

/-- A solution of the DLT system solves the normal equations. -/
theorem ata_solution (A : ℕ → ℕ → α) (xs : ℕ → α)
    (hsol : ∀ i < 8, (∑ j ∈ Finset.range 8, A i j * xs j) = -A i 8) :
    ∀ j < 8, dot8 (ataMat A) xs j = atbVec A j := by
  intro j _
  unfold dot8
  rw [atbVec_eq_sum]
  have hrw : ∀ k, ataMat A j k * xs k =
      ∑ i ∈ Finset.range 8, A i j * A i k * xs k := by
    intro k
    rw [ataMat_eq_sum, Finset.sum_mul]
  calc (∑ k ∈ Finset.range 8, ataMat A j k * xs k) =
      ∑ k ∈ Finset.range 8, ∑ i ∈ Finset.range 8, A i j * A i k * xs k := by
        apply Finset.sum_congr rfl
        intro k _
        exact hrw k
    _ = ∑ i ∈ Finset.range 8, ∑ k ∈ Finset.range 8, A i j * A i k * xs k :=
        Finset.sum_comm
    _ = ∑ i ∈ Finset.range 8, A i j * (∑ k ∈ Finset.range 8, A i k * xs k) := by
        apply Finset.sum_congr rfl
        intro i _
        rw [Finset.mul_sum]
        apply Finset.sum_congr rfl
        intro k _
        ring
    _ = ∑ i ∈ Finset.range 8, A i j * (-A i 8) := by
        apply Finset.sum_congr rfl
        intro i hi
        rw [hsol i (Finset.mem_range.mp hi)]

/-- A kernel vector of the normal matrix is a kernel vector of the DLT
matrix: `uᵗAᵗAu` is the sum of the squared row residuals. -/
theorem ata_kernel (A : ℕ → ℕ → α) (u : ℕ → α)
    (hker : ∀ j < 8, dot8 (ataMat A) u j = 0) :
    ∀ i < 8, (∑ j ∈ Finset.range 8, A i j * u j) = 0 := by
  have hquad : (∑ i ∈ Finset.range 8,
      (∑ j ∈ Finset.range 8, A i j * u j) ^ 2) = 0 := by
    have hexp : (∑ i ∈ Finset.range 8, (∑ j ∈ Finset.range 8, A i j * u j) ^ 2) =
        ∑ j ∈ Finset.range 8, u j * dot8 (ataMat A) u j := by
      unfold dot8
      have hlhs : ∀ i, (∑ j ∈ Finset.range 8, A i j * u j) ^ 2 =
          ∑ j ∈ Finset.range 8, ∑ k ∈ Finset.range 8,
            u j * (A i j * A i k * u k) := by
        intro i
        rw [sq, Finset.sum_mul_sum]
        apply Finset.sum_congr rfl
        intro j _
        apply Finset.sum_congr rfl
        intro k _
        ring
      calc (∑ i ∈ Finset.range 8, (∑ j ∈ Finset.range 8, A i j * u j) ^ 2) =
          ∑ i ∈ Finset.range 8, ∑ j ∈ Finset.range 8, ∑ k ∈ Finset.range 8,
            u j * (A i j * A i k * u k) := by
            apply Finset.sum_congr rfl
            intro i _
            exact hlhs i
        _ = ∑ j ∈ Finset.range 8, ∑ i ∈ Finset.range 8, ∑ k ∈ Finset.range 8,
            u j * (A i j * A i k * u k) := Finset.sum_comm
        _ = ∑ j ∈ Finset.range 8, u j *
            (∑ k ∈ Finset.range 8, ataMat A j k * u k) := by
            apply Finset.sum_congr rfl
            intro j _
            rw [Finset.mul_sum]
            rw [Finset.sum_comm]
            apply Finset.sum_congr rfl
            intro k _
            rw [ataMat_eq_sum, Finset.sum_mul, Finset.mul_sum]
    rw [hexp]
    apply Finset.sum_eq_zero
    intro j hj
    rw [hker j (Finset.mem_range.mp hj), mul_zero]
  intro i hi
  have hnn : ∀ i0 ∈ Finset.range 8,
      0 ≤ (∑ j ∈ Finset.range 8, A i0 j * u j) ^ 2 := fun i0 _ => sq_nonneg _
  have := (Finset.sum_eq_zero_iff_of_nonneg hnn).mp hquad i (Finset.mem_range.mpr hi)
  exact pow_eq_zero_iff (by norm_num) |>.mp this

/-- Solution-set equivalence between the current elimination state and
the original system. -/
def SolEquiv (M0 : ℕ → ℕ → α) (v0 : ℕ → α) (st : (ℕ → ℕ → α) × (ℕ → α)) : Prop :=
  ∀ u : ℕ → α, (∀ i < 8, dot8 st.1 u i = st.2 i) ↔ (∀ i < 8, dot8 M0 u i = v0 i)

/-- Kernel equivalence between the current matrix and the original. -/
def KerEquiv (M0 M : ℕ → ℕ → α) : Prop :=
  ∀ u : ℕ → α, (∀ i < 8, dot8 M u i = 0) ↔ (∀ i < 8, dot8 M0 u i = 0)

/-- Zeros below the diagonal in the first `i` columns. -/
def BelowZero (M : ℕ → ℕ → α) (i : ℕ) : Prop :=
  ∀ k j, j < i → j < k → k < 8 → M k j = 0

/-- Nonzero diagonal entries in the first `i` rows. -/
def DiagNZ (M : ℕ → ℕ → α) (i : ℕ) : Prop := ∀ j < i, M j j ≠ 0

/-- Invariant carried through the forward elimination. -/
def ElimInv (M0 : ℕ → ℕ → α) (v0 : ℕ → α) (i : ℕ)
    (st : (ℕ → ℕ → α) × (ℕ → α)) : Prop :=
  SolEquiv M0 v0 st ∧ KerEquiv M0 st.1 ∧ BelowZero st.1 i ∧ DiagNZ st.1 i

theorem pivotFold_spec (M : ℕ → ℕ → α) (i : ℕ) :
    ∀ (L : List ℕ) (acc : ℕ),
      (L.foldl (fun maxRow k => if |M maxRow i| < |M k i| then k else maxRow) acc = acc ∨
        L.foldl (fun maxRow k => if |M maxRow i| < |M k i| then k else maxRow) acc ∈ L) ∧
      |M acc i| ≤ |M (L.foldl (fun maxRow k => if |M maxRow i| < |M k i| then k else maxRow) acc) i| ∧
      ∀ k ∈ L, |M k i| ≤ |M (L.foldl (fun maxRow k => if |M maxRow i| < |M k i| then k else maxRow) acc) i| := by
  intro L
  induction L with
  | nil =>
    intro acc
    refine ⟨Or.inl rfl, le_refl _, ?_⟩
    intro k hk
    simp at hk
  | cons k0 L ih =>
    intro acc
    simp only [List.foldl_cons]
    set acc1 := if |M acc i| < |M k0 i| then k0 else acc with hacc1
    have hstep : (acc1 = k0 ∨ acc1 = acc) ∧ |M acc i| ≤ |M acc1 i| ∧
        |M k0 i| ≤ |M acc1 i| := by
      rw [hacc1]
      split_ifs with hc
      · exact ⟨Or.inl rfl, le_of_lt hc, le_refl _⟩
      · exact ⟨Or.inr rfl, le_refl _, le_of_not_lt hc⟩
    obtain ⟨hm, hacc, hall⟩ := ih acc1
    refine ⟨?_, le_trans hstep.2.1 hacc, ?_⟩
    · rcases hm with h | h
      · rw [h]
        rcases hstep.1 with h' | h'
        · exact Or.inr (h' ▸ List.mem_cons_self k0 L)
        · exact Or.inl h'
      · exact Or.inr (List.mem_cons_of_mem k0 h)
    · intro k hk
      rcases List.mem_cons.mp hk with h | h
      · exact h ▸ le_trans hstep.2.2 hacc
      · exact hall k h

theorem pivotRow_spec (M : ℕ → ℕ → α) (i : ℕ) (hi : i < 8) :
    (i ≤ pivotRow M i ∧ pivotRow M i < 8) ∧
      ∀ k, i ≤ k → k < 8 → |M k i| ≤ |M (pivotRow M i) i| := by
  obtain ⟨hm, hacc, hall⟩ := pivotFold_spec M i (upFrom i) i
  constructor
  · rcases hm with h | h
    · rw [pivotRow, h]
      exact ⟨le_refl i, hi⟩
    · have := mem_upFrom.mp h
      rw [pivotRow]
      exact ⟨by omega, this.2⟩
  · intro k hk1 hk2
    rcases eq_or_lt_of_le hk1 with h | h
    · rw [← h]
      exact hacc
    · exact hall k (mem_upFrom.mpr ⟨h, hk2⟩)

/-- The swap index map used by the pivot exchange. -/
def swapIx (r1 r2 r : ℕ) : ℕ := if r = r1 then r2 else if r = r2 then r1 else r

theorem swapIx_invol (r1 r2 r : ℕ) : swapIx r1 r2 (swapIx r1 r2 r) = r := by
  unfold swapIx
  split_ifs <;> omega

theorem swapIx_lt {r1 r2 r : ℕ} (h1 : r1 < 8) (h2 : r2 < 8) (hr : r < 8) :
    swapIx r1 r2 r < 8 := by
  unfold swapIx
  split_ifs <;> omega

theorem dot8_swapRows (M : ℕ → ℕ → α) (r1 r2 : ℕ) (u : ℕ → α) (r : ℕ) :
    dot8 (swapRows M r1 r2) u r = dot8 M u (swapIx r1 r2 r) := by
  unfold dot8 swapRows swapIx
  split_ifs <;> rfl

theorem swapVec_eq (v : ℕ → α) (r1 r2 r : ℕ) :
    swapVec v r1 r2 r = v (swapIx r1 r2 r) := by
  unfold swapVec swapIx
  split_ifs <;> rfl

theorem forall_swapIx_iff (P : ℕ → Prop) (r1 r2 : ℕ) (h1 : r1 < 8) (h2 : r2 < 8) :
    (∀ i < 8, P (swapIx r1 r2 i)) ↔ ∀ i < 8, P i := by
  constructor
  · intro h i hilt
    have := h (swapIx r1 r2 i) (swapIx_lt h1 h2 hilt)
    rwa [swapIx_invol] at this
  · intro h i hilt
    exact h _ (swapIx_lt h1 h2 hilt)

theorem solEquiv_swap (M0 : ℕ → ℕ → α) (v0 : ℕ → α) (st : (ℕ → ℕ → α) × (ℕ → α))
    (r1 r2 : ℕ) (h1 : r1 < 8) (h2 : r2 < 8) (hse : SolEquiv M0 v0 st) :
    SolEquiv M0 v0 (swapRows st.1 r1 r2, swapVec st.2 r1 r2) := by
  intro u
  rw [← hse u]
  simp only
  constructor
  · intro h i hilt
    have := (forall_swapIx_iff
      (fun r => dot8 st.1 u r = st.2 r) r1 r2 h1 h2).mp ?_ i hilt
    · exact this
    · intro i0 hi0
      have hh := h i0 hi0
      rw [dot8_swapRows, swapVec_eq] at hh
      exact hh
  · intro h i hilt
    rw [dot8_swapRows, swapVec_eq]
    exact h _ (swapIx_lt h1 h2 hilt)

theorem kerEquiv_swap (M0 : ℕ → ℕ → α) (M : ℕ → ℕ → α)
    (r1 r2 : ℕ) (h1 : r1 < 8) (h2 : r2 < 8) (hke : KerEquiv M0 M) :
    KerEquiv M0 (swapRows M r1 r2) := by
  intro u
  rw [← hke u]
  constructor
  · intro h i hilt
    have := (forall_swapIx_iff
      (fun r => dot8 M u r = 0) r1 r2 h1 h2).mp ?_ i hilt
    · exact this
    · intro i0 hi0
      have hh := h i0 hi0
      rw [dot8_swapRows] at hh
      exact hh
  · intro h i hilt
    rw [dot8_swapRows]
    exact h _ (swapIx_lt h1 h2 hilt)

theorem dot8_update (M : ℕ → ℕ → α) (u : ℕ → α) (r j0 : ℕ) (c : α) (h : j0 < 8) :
    dot8 M (fun j => if j = j0 then c else u j) r =
      dot8 M u r + M r j0 * (c - u j0) := by
  unfold dot8
  have hsplit : ∀ j ∈ Finset.range 8,
      M r j * (if j = j0 then c else u j) =
        M r j * u j + (if j = j0 then M r j0 * (c - u j0) else 0) := by
    intro j _
    by_cases hj : j = j0
    · subst hj
      rw [if_pos rfl, if_pos rfl]
      ring
    · rw [if_neg hj, if_neg hj, add_zero]
  rw [Finset.sum_congr rfl hsplit, Finset.sum_add_distrib]
  congr 1
  rw [Finset.sum_ite_eq' (Finset.range 8) j0 fun _ => M r j0 * (c - u j0)]
  rw [if_pos (Finset.mem_range.mpr h)]

/-- If the current matrix is echelon through column `i` and its whole
pivot column `i` vanishes from row `i` down, the system has a nonzero
kernel vector. -/
theorem exists_kernel_vec (M : ℕ → ℕ → α) (i : ℕ) (hi : i < 8)
    (hbz : BelowZero M i) (hdnz : DiagNZ M i)
    (hcol : ∀ k, i ≤ k → k < 8 → M k i = 0) :
    ∃ u : ℕ → α, u i = 1 ∧ ∀ r < 8, dot8 M u r = 0 := by
  have aux : ∀ m, m ≤ i → ∃ u : ℕ → α, u i = 1 ∧
      (∀ j, j < i - m → u j = 0) ∧ (∀ j, i < j → u j = 0) ∧
      ∀ r, i - m ≤ r → r < i → dot8 M u r = 0 := by
    intro m
    induction m with
    | zero =>
      intro _
      refine ⟨fun j => if j = i then 1 else 0, ?_, ?_, ?_, ?_⟩
      · show (if i = i then (1 : α) else 0) = 1
        rw [if_pos rfl]
      · intro j hj
        show (if j = i then (1 : α) else 0) = 0
        rw [if_neg (by omega)]
      · intro j hj
        show (if j = i then (1 : α) else 0) = 0
        rw [if_neg (by omega)]
      · intro r h1 h2
        omega
    | succ m ih =>
      intro hm
      obtain ⟨u, hui, hlow, hhigh, hrows⟩ := ih (by omega)
      set j0 := i - (m + 1) with hj0
      have hj0i : j0 < i := by omega
      have hj08 : j0 < 8 := by omega
      have hpiv : M j0 j0 ≠ 0 := hdnz j0 hj0i
      set c := u j0 - dot8 M u j0 / M j0 j0 with hc
      refine ⟨fun j => if j = j0 then c else u j, ?_, ?_, ?_, ?_⟩
      · show (if i = j0 then c else u i) = 1
        rw [if_neg (by omega)]
        exact hui
      · intro j hj
        show (if j = j0 then c else u j) = 0
        rw [if_neg (by omega)]
        exact hlow j (by omega)
      · intro j hj
        show (if j = j0 then c else u j) = 0
        rw [if_neg (by omega)]
        exact hhigh j hj
      · intro r h1 h2
        rcases eq_or_lt_of_le h1 with hr | hr
        · rw [dot8_update M u r j0 c hj08, ← hr]
          rw [hc]
          field_simp
          ring
        · rw [dot8_update M u r j0 c hj08]
          rw [hrows r (by omega) h2]
          rw [hbz r j0 hj0i (by omega) (by omega)]
          ring
  obtain ⟨u, hui, hlow, hhigh, hrows⟩ := aux i (le_refl i)
  refine ⟨u, hui, ?_⟩
  intro r hr
  by_cases hri : r < i
  · exact hrows r (by omega) hri
  · unfold dot8
    apply Finset.sum_eq_zero
    intro j hj
    have hj8 := Finset.mem_range.mp hj
    rcases Nat.lt_trichotomy j i with h | h | h
    · rw [hbz r j h (by omega) hr, zero_mul]
    · subst h
      rw [hcol r (by omega) hr, zero_mul]
    · rw [hhigh j h, mul_zero]

theorem dot8_rowSub_other (M : ℕ → ℕ → α) (u : ℕ → α) (k i r : ℕ) (c : α)
    (hrk : r ≠ k) : dot8 (rowSub M k i c) u r = dot8 M u r := by
  unfold dot8 rowSub
  simp only [if_neg hrk]

theorem dot8_rowSub (M : ℕ → ℕ → α) (u : ℕ → α) (k i : ℕ) (c : α)
    (hpz : ∀ j, j < i → M i j = 0) :
    dot8 (rowSub M k i c) u k = dot8 M u k - c * dot8 M u i := by
  have hrowk : ∀ j, j < 8 → rowSub M k i c k j = M k j - c * M i j := by
    intro j hj
    simp only [rowSub, eq_self_iff_true, if_true]
    by_cases hij : i ≤ j
    · rw [if_pos (show i ≤ j ∧ j < 8 from ⟨hij, hj⟩)]
    · rw [if_neg (show ¬(i ≤ j ∧ j < 8) from fun hh => hij hh.1),
        hpz j (by omega)]
      ring
  unfold dot8
  have hpt : ∀ j ∈ Finset.range 8,
      rowSub M k i c k j * u j = M k j * u j - c * (M i j * u j) := by
    intro j hj
    rw [hrowk j (Finset.mem_range.mp hj)]
    ring
  rw [Finset.sum_congr rfl hpt, Finset.sum_sub_distrib, ← Finset.mul_sum]

/-- The row operation of the inner elimination loop is solution-set
preserving: an invertible elementary operation on rows `k ≠ i`. -/
theorem rowop_iff (M : ℕ → ℕ → α) (w : ℕ → α) (k i : ℕ)
    (hki : k ≠ i) (hi : i < 8) (c : α)
    (hpz : ∀ j, j < i → M i j = 0) (u : ℕ → α) :
    (∀ r < 8, dot8 (rowSub M k i c) u r =
        (if r = k then w k - c * w i else w r)) ↔
      ∀ r < 8, dot8 M u r = w r := by
  constructor
  · intro h r hr
    have hieq : dot8 M u i = w i := by
      have hh := h i hi
      rw [if_neg (Ne.symm hki), dot8_rowSub_other M u k i i c (Ne.symm hki)] at hh
      exact hh
    by_cases hrk : r = k
    · subst hrk
      have hh := h r hr
      rw [if_pos rfl, dot8_rowSub M u r i c hpz, hieq] at hh
      linarith
    · have hh := h r hr
      rw [if_neg hrk, dot8_rowSub_other M u k i r c hrk] at hh
      exact hh
  · intro h r hr
    by_cases hrk : r = k
    · subst hrk
      rw [if_pos rfl, dot8_rowSub M u r i c hpz, h r hr, h i hi]
    · rw [if_neg hrk, dot8_rowSub_other M u k i r c hrk]
      exact h r hr

theorem solEquiv_inner (M0 : ℕ → ℕ → α) (v0 : ℕ → α)
    (st : (ℕ → ℕ → α) × (ℕ → α)) (k i : ℕ) (hki : k ≠ i) (hi : i < 8) (c : α)
    (hpz : ∀ j, j < i → st.1 i j = 0) (hse : SolEquiv M0 v0 st) :
    SolEquiv M0 v0 (rowSub st.1 k i c,
      fun r => if r = k then st.2 k - c * st.2 i else st.2 r) := by
  intro u
  rw [← hse u]
  exact rowop_iff st.1 st.2 k i hki hi c hpz u

theorem kerEquiv_inner (M0 M : ℕ → ℕ → α) (k i : ℕ) (hki : k ≠ i) (hi : i < 8)
    (c : α) (hpz : ∀ j, j < i → M i j = 0) (hke : KerEquiv M0 M) :
    KerEquiv M0 (rowSub M k i c) := by
  intro u
  rw [← hke u]
  have h := rowop_iff M (fun _ => (0 : α)) k i hki hi c hpz u
  simpa only [mul_zero, sub_zero, ite_self] using h

/-- Behaviour of the inner fold of `elimStep` over any suffix of the
row list: solution and kernel sets are preserved, rows outside the list
are untouched, and (with a nonzero pivot) the column-`i` entries of the
listed rows are cleared. -/
theorem innerFold_spec (M0 : ℕ → ℕ → α) (v0 : ℕ → α) (i : ℕ) (hi : i < 8) :
    ∀ (l : List ℕ) (st : (ℕ → ℕ → α) × (ℕ → α)),
      (∀ k ∈ l, i + 1 ≤ k ∧ k < 8) → l.Nodup →
      SolEquiv M0 v0 st → KerEquiv M0 st.1 →
      (∀ j, j < i → st.1 i j = 0) →
      SolEquiv M0 v0 (l.foldl (innerStep i) st) ∧
      KerEquiv M0 (l.foldl (innerStep i) st).1 ∧
      (∀ r, r ∉ l → (l.foldl (innerStep i) st).1 r = st.1 r) ∧
      (∀ r, r ∉ l → (l.foldl (innerStep i) st).2 r = st.2 r) ∧
      (st.1 i i ≠ 0 → ∀ k ∈ l, (l.foldl (innerStep i) st).1 k i = 0) ∧
      (∀ r j, j < i → (l.foldl (innerStep i) st).1 r j = st.1 r j) := by
  intro l
  induction l with
  | nil =>
    intro st _ _ hse hke hpz
    refine ⟨hse, hke, fun r _ => rfl, fun r _ => rfl, ?_, fun r j _ => rfl⟩
    intro _ k hk
    simp at hk
  | cons k0 l ih =>
    intro st hmem hnd hse hke hpz
    have hk0 : i + 1 ≤ k0 ∧ k0 < 8 := hmem k0 (List.mem_cons_self k0 l)
    have hk0i : k0 ≠ i := by omega
    simp only [List.foldl_cons]
    by_cases hp : st.1 i i ≠ 0
    · have hstep : innerStep i st k0 =
          (rowSub st.1 k0 i (st.1 k0 i / st.1 i i),
            fun r => if r = k0 then
              st.2 k0 - st.1 k0 i / st.1 i i * st.2 i else st.2 r) := by
        unfold innerStep
        rw [if_pos hp]
      set c := st.1 k0 i / st.1 i i with hcdef
      have hse' : SolEquiv M0 v0 (innerStep i st k0) := by
        rw [hstep]
        exact solEquiv_inner M0 v0 st k0 i hk0i hi c hpz hse
      have hke' : KerEquiv M0 (innerStep i st k0).1 := by
        rw [hstep]
        exact kerEquiv_inner M0 st.1 k0 i hk0i hi c hpz hke
      have hrow : ∀ r, r ≠ k0 → (innerStep i st k0).1 r = st.1 r := by
        intro r hr
        rw [hstep]
        unfold rowSub
        simp only [if_neg hr]
      have hvec : ∀ r, r ≠ k0 → (innerStep i st k0).2 r = st.2 r := by
        intro r hr
        rw [hstep]
        simp only [if_neg hr]
      have hpz' : ∀ j, j < i → (innerStep i st k0).1 i j = 0 := by
        intro j hj
        rw [hrow i (Ne.symm hk0i)]
        exact hpz j hj
      have hpiv' : (innerStep i st k0).1 i i = st.1 i i :=
        congrFun (hrow i (Ne.symm hk0i)) i
      have hcleared : (innerStep i st k0).1 k0 i = 0 := by
        rw [hstep]
        show rowSub st.1 k0 i c k0 i = 0
        simp only [rowSub, eq_self_iff_true, if_true]
        rw [if_pos (show i ≤ i ∧ i < 8 from ⟨le_refl i, hi⟩), hcdef]
        field_simp
      have hlowstep : ∀ r j, j < i → (innerStep i st k0).1 r j = st.1 r j := by
        intro r j hj
        by_cases hrk : r = k0
        · subst hrk
          rw [hstep]
          show rowSub st.1 r i c r j = st.1 r j
          simp only [rowSub, eq_self_iff_true, if_true]
          rw [if_neg (show ¬(i ≤ j ∧ j < 8) from fun hh => absurd hh.1 (by omega))]
        · exact congrFun (hrow r hrk) j
      obtain ⟨rse, rke, rrow, rvec, rcol, rlow⟩ :=
        ih (innerStep i st k0)
          (fun k hk => hmem k (List.mem_cons_of_mem k0 hk))
          (List.Nodup.of_cons hnd) hse' hke' hpz'
      refine ⟨rse, rke, ?_, ?_, ?_, ?_⟩
      · intro r hr
        rw [rrow r (fun h => hr (List.mem_cons_of_mem k0 h))]
        exact hrow r (fun h => hr (h ▸ List.mem_cons_self k0 l))
      · intro r hr
        rw [rvec r (fun h => hr (List.mem_cons_of_mem k0 h))]
        exact hvec r (fun h => hr (h ▸ List.mem_cons_self k0 l))
      · intro _ k hk
        rcases List.mem_cons.mp hk with h | h
        · subst h
          have hnotin : k ∉ l := (List.nodup_cons.mp hnd).1
          rw [rrow k hnotin]
          exact hcleared
        · exact rcol (by rw [hpiv']; exact hp) k h
      · intro r j hj
        rw [rlow r j hj]
        exact hlowstep r j hj
    · have hstep : innerStep i st k0 = st := by
        unfold innerStep
        rw [if_neg hp]
      rw [hstep]
      obtain ⟨rse, rke, rrow, rvec, rcol, rlow⟩ :=
        ih st (fun k hk => hmem k (List.mem_cons_of_mem k0 hk))
          (List.Nodup.of_cons hnd) hse hke hpz
      refine ⟨rse, rke, ?_, ?_, ?_, ?_⟩
      · intro r hr
        exact rrow r (fun h => hr (List.mem_cons_of_mem k0 h))
      · intro r hr
        exact rvec r (fun h => hr (List.mem_cons_of_mem k0 h))
      · intro hpv
        exact absurd hpv hp
      · exact rlow

theorem swapRows_eq (M : ℕ → ℕ → α) (r1 r2 r j : ℕ) :
    swapRows M r1 r2 r j = M (swapIx r1 r2 r) j := by
  unfold swapRows swapIx
  split_ifs <;> rfl

theorem upFrom_nodup (i : ℕ) : (upFrom i).Nodup := by
  unfold upFrom
  exact (List.nodup_range _).map fun a b h => by omega

/-- One outer elimination step preserves the invariant and extends the
echelon shape by one column, provided the original system has a trivial
kernel (which forces the pivot to be nonzero). -/
theorem elimStep_inv (M0 : ℕ → ℕ → α) (v0 : ℕ → α)
    (hker : ∀ u : ℕ → α, (∀ r < 8, dot8 M0 u r = 0) → ∀ j < 8, u j = 0)
    (i : ℕ) (hi : i < 8) (st : (ℕ → ℕ → α) × (ℕ → α))
    (hinv : ElimInv M0 v0 i st) :
    ElimInv M0 v0 (i + 1) (elimStep st i) := by
  obtain ⟨hse, hke, hbz, hdnz⟩ := hinv
  set p := pivotRow st.1 i with hpdef
  obtain ⟨⟨hpi, hp8⟩, hpmax⟩ := pivotRow_spec st.1 i hi
  set M1 := swapRows st.1 i p with hM1
  set v1 := swapVec st.2 i p with hv1
  have helim : elimStep st i = (upFrom i).foldl (innerStep i) (M1, v1) := rfl
  have hse1 : SolEquiv M0 v0 (M1, v1) := solEquiv_swap M0 v0 st i p hi hp8 hse
  have hke1 : KerEquiv M0 M1 := kerEquiv_swap M0 st.1 i p hi hp8 hke
  have hbz1 : BelowZero M1 i := by
    intro k j hj hjk hk8
    rw [hM1, swapRows_eq]
    have hx := swapIx_lt hi hp8 hk8
    have : j < swapIx i p k := by
      unfold swapIx
      split_ifs <;> omega
    exact hbz (swapIx i p k) j hj this hx
  have hdnz1 : DiagNZ M1 i := by
    intro j hj
    rw [hM1, swapRows_eq]
    have : swapIx i p j = j := by
      unfold swapIx
      split_ifs <;> omega
    rw [this]
    exact hdnz j hj
  have hpz1 : ∀ j, j < i → M1 i j = 0 := fun j hj => hbz1 i j hj hj hi
  have hpivp : M1 i i = st.1 p i := by
    rw [hM1, swapRows_eq]
    unfold swapIx
    rw [if_pos rfl]
  have hpivne : M1 i i ≠ 0 := by
    intro h0
    have hzp : st.1 p i = 0 := by
      rw [← hpivp]
      exact h0
    have hcol : ∀ k, i ≤ k → k < 8 → M1 k i = 0 := by
      intro k hk hk8
      rw [hM1, swapRows_eq]
      have h1 : i ≤ swapIx i p k := by
        unfold swapIx
        split_ifs <;> omega
      have h2 : swapIx i p k < 8 := swapIx_lt hi hp8 hk8
      have := hpmax (swapIx i p k) h1 h2
      rw [hzp] at this
      simp only [abs_zero] at this
      exact abs_eq_zero.mp (le_antisymm this (abs_nonneg _))
    obtain ⟨u, hui, hudot⟩ := exists_kernel_vec M1 i hi hbz1 hdnz1 hcol
    have hz := hker u ((hke1 u).mp hudot) i hi
    rw [hui] at hz
    exact one_ne_zero hz
  obtain ⟨rse, rke, rrow, rvec, rcol, rlow⟩ :=
    innerFold_spec M0 v0 i hi (upFrom i) (M1, v1)
      (fun k hk => mem_upFrom.mp hk) (upFrom_nodup i) hse1 hke1 hpz1
  rw [helim]
  refine ⟨rse, rke, ?_, ?_⟩
  · intro k j hj hjk hk8
    rcases Nat.lt_or_ge j i with hji | hji
    · rw [rlow k j hji]
      exact hbz1 k j hji hjk hk8
    · have hjeq : j = i := by omega
      subst hjeq
      exact rcol hpivne k (mem_upFrom.mpr ⟨by omega, hk8⟩)
  · intro j hj
    rcases Nat.lt_or_ge j i with hji | hji
    · have : j ∉ upFrom i := fun h => by
        have := mem_upFrom.mp h
        omega
      rw [congrFun (rrow j this) j]
      exact hdnz1 j hji
    · have hjeq : j = i := by omega
      subst hjeq
      have : j ∉ upFrom j := fun h => by
        have := mem_upFrom.mp h
        omega
      rw [congrFun (rrow j this) j]
      exact hpivne

/-- The full forward elimination carries the invariant to column 8:
the result is upper triangular with nonzero diagonal, and has the same
solution set as the input system. -/
theorem forwardElim_inv (M0 : ℕ → ℕ → α) (v0 : ℕ → α)
    (hker : ∀ u : ℕ → α, (∀ r < 8, dot8 M0 u r = 0) → ∀ j < 8, u j = 0) :
    ElimInv M0 v0 8 (forwardElim M0 v0) := by
  have h0 : ElimInv M0 v0 0 (M0, v0) :=
    ⟨fun u => Iff.rfl, fun u => Iff.rfl,
      fun k j hj _ _ => absurd hj (Nat.not_lt_zero j),
      fun j hj => absurd hj (Nat.not_lt_zero j)⟩
  have h1 := elimStep_inv M0 v0 hker 0 (by norm_num) _ h0
  have h2 := elimStep_inv M0 v0 hker 1 (by norm_num) _ h1
  have h3 := elimStep_inv M0 v0 hker 2 (by norm_num) _ h2
  have h4 := elimStep_inv M0 v0 hker 3 (by norm_num) _ h3
  have h5 := elimStep_inv M0 v0 hker 4 (by norm_num) _ h4
  have h6 := elimStep_inv M0 v0 hker 5 (by norm_num) _ h5
  have h7 := elimStep_inv M0 v0 hker 6 (by norm_num) _ h6
  have h8 := elimStep_inv M0 v0 hker 7 (by norm_num) _ h7
  have hfe : forwardElim M0 v0 =
      elimStep (elimStep (elimStep (elimStep (elimStep (elimStep (elimStep
        (elimStep (M0, v0) 0) 1) 2) 3) 4) 5) 6) 7 := rfl
  rw [hfe]
  exact h8

theorem bstep_other (M : ℕ → ℕ → α) (v x : ℕ → α) (m r : ℕ) (h : r ≠ m) :
    bstep M v x m r = x r := by
  unfold bstep
  rw [if_neg h]

/-- Back substitution recovers the (unique) solution of an upper
triangular system with nonzero diagonal. -/
theorem backSub_correct (M : ℕ → ℕ → α) (v xs : ℕ → α)
    (hbz : BelowZero M 8) (hdnz : DiagNZ M 8)
    (hsol : ∀ r < 8, dot8 M xs r = v r) :
    ∀ j, j < 8 → backSub M v j = xs j := by
  have aux : ∀ m, m ≤ 8 → ∀ x : ℕ → α, (∀ j, m ≤ j → j < 8 → x j = xs j) →
      ∀ j, j < 8 → ((List.range m).reverse.foldl (bstep M v) x) j = xs j := by
    intro m
    induction m with
    | zero =>
      intro _ x hx j hj
      simp only [List.range_zero, List.reverse_nil, List.foldl_nil]
      exact hx j (Nat.zero_le j) hj
    | succ m ih =>
      intro hm x hx
      have hsplit : (List.range (m + 1)).reverse = m :: (List.range m).reverse := by
        rw [List.range_succ, List.reverse_append]
        rfl
      rw [hsplit]
      simp only [List.foldl_cons]
      apply ih (by omega)
      intro j hj1 hj2
      by_cases hjm : j = m
      · subst hjm
        unfold bstep
        rw [if_pos rfl, if_pos (hdnz j hj2)]
        rw [upFrom_foldl_sub j (fun k => M j k * x k) (v j)]
        have hxup : (∑ k ∈ Finset.Ico (j + 1) 8, M j k * x k) =
            ∑ k ∈ Finset.Ico (j + 1) 8, M j k * xs k := by
          apply Finset.sum_congr rfl
          intro k hk
          have hk' := Finset.mem_Ico.mp hk
          rw [hx k (by omega) hk'.2]
        rw [hxup]
        have hdot := hsol j hj2
        unfold dot8 at hdot
        have hdecomp : (∑ k ∈ Finset.range 8, M j k * xs k) =
            M j j * xs j + ∑ k ∈ Finset.Ico (j + 1) 8, M j k * xs k := by
          have h1 : Finset.range 8 = Finset.Ico 0 8 := by
            rw [Finset.range_eq_Ico]
          rw [h1, ← Finset.sum_Ico_consecutive _ (Nat.zero_le j) (le_of_lt hj2)]
          have h2 : (∑ k ∈ Finset.Ico 0 j, M j k * xs k) = 0 := by
            apply Finset.sum_eq_zero
            intro k hk
            have hk' := Finset.mem_Ico.mp hk
            rw [hbz j k (by omega) hk'.2 hj2, zero_mul]
          rw [h2, zero_add, ← Finset.sum_Ico_consecutive _ (by omega : j ≤ j + 1)
            (by omega : j + 1 ≤ 8)]
          rw [Finset.sum_Ico_eq_sum_range]
          simp
        rw [hdecomp] at hdot
        rw [div_eq_iff (hdnz j hj2)]
        linear_combination -hdot
      · rw [bstep_other M v x m j (by omega)]
        exact hx j (by omega) hj2
  intro j hj
  have h8 : backSub M v = (List.range 8).reverse.foldl (bstep M v) (fun _ => 0) := rfl
  rw [h8]
  exact aux 8 (le_refl 8) (fun _ => 0) (fun k hk1 hk2 => absurd hk2 (by omega)) j hj

/-- `solveHomography` is exact: when the 8×8 DLT system has a solution
and a trivial kernel, the solver returns that solution (its first eight
entries), followed by the fixed ninth coefficient 1. -/
theorem solveHomography_correct (A : ℕ → ℕ → α) (xs : ℕ → α)
    (hsol : ∀ i < 8, (∑ j ∈ Finset.range 8, A i j * xs j) = -A i 8)
    (hker : ∀ u : ℕ → α,
      (∀ i < 8, (∑ j ∈ Finset.range 8, A i j * u j) = 0) → ∀ j < 8, u j = 0) :
    ∀ j, j < 8 → (solveHomography A).getD j 0 = xs j := by
  intro j hj
  have hker0 : ∀ u : ℕ → α,
      (∀ r < 8, dot8 (ataMat A) u r = 0) → ∀ k < 8, u k = 0 := by
    intro u hu
    exact hker u (ata_kernel A u hu)
  obtain ⟨hse, hke, hbz, hdnz⟩ := forwardElim_inv (ataMat A) (atbVec A) hker0
  have hxs0 : ∀ r < 8, dot8 (ataMat A) xs r = atbVec A r := ata_solution A xs hsol
  have hxs1 : ∀ r < 8, dot8 (forwardElim (ataMat A) (atbVec A)).1 xs r =
      (forwardElim (ataMat A) (atbVec A)).2 r := (hse xs).mpr hxs0
  have hback := backSub_correct (forwardElim (ataMat A) (atbVec A)).1
    (forwardElim (ataMat A) (atbVec A)).2 xs hbz hdnz hxs1
  have hgetD : (solveHomography A).getD j 0 =
      backSub (forwardElim (ataMat A) (atbVec A)).1
        (forwardElim (ataMat A) (atbVec A)).2 j := by
    interval_cases j <;> rfl
  rw [hgetD]
  exact hback j hj

/-! The homography round trip (C7) and the identity resample (C6).
`heckbert` is the closed-form solution of the rectangle-to-quadrilateral
DLT system (the classical square-to-quad construction); the solver is
shown to return exactly these coefficients. -/

theorem pt_ext {a b : Pt α} (hx : a.x = b.x) (hy : a.y = b.y) : a = b := by
  cases a
  cases b
  cases hx
  cases hy
  rfl

/-- Twice the signed area of the triangle `a b c`. -/
def cross2 (a b c : Pt α) : α :=
  (b.x - a.x) * (c.y - a.y) - (c.x - a.x) * (b.y - a.y)

/-- A strictly convex quadrilateral: the four corner triples turn
consistently (all left turns or all right turns), which also rules out
collinear triples and repeated corners. -/
def ConvexQuad (p0 p1 p2 p3 : Pt α) : Prop :=
  (0 < cross2 p0 p1 p2 ∧ 0 < cross2 p1 p2 p3 ∧
    0 < cross2 p2 p3 p0 ∧ 0 < cross2 p3 p0 p1) ∨
  (cross2 p0 p1 p2 < 0 ∧ cross2 p1 p2 p3 < 0 ∧
    cross2 p2 p3 p0 < 0 ∧ cross2 p3 p0 p1 < 0)

/-- Denominator of the square-to-quad construction. -/
def hkD (p1 p2 p3 : Pt α) : α :=
  (p1.x - p2.x) * (p3.y - p2.y) - (p3.x - p2.x) * (p1.y - p2.y)

/-- Coefficient `g = H[6]` of the unit-square-to-quad homography. -/
def hkG (p0 p1 p2 p3 : Pt α) : α :=
  ((p0.x - p1.x + p2.x - p3.x) * (p3.y - p2.y) -
    (p0.y - p1.y + p2.y - p3.y) * (p3.x - p2.x)) / hkD p1 p2 p3

/-- Coefficient `h = H[7]` of the unit-square-to-quad homography. -/
def hkH (p0 p1 p2 p3 : Pt α) : α :=
  ((p1.x - p2.x) * (p0.y - p1.y + p2.y - p3.y) -
    (p1.y - p2.y) * (p0.x - p1.x + p2.x - p3.x)) / hkD p1 p2 p3

/-- The exact solution of the 8×8 DLT system mapping the rectangle
`[0,w]×[0,h]` onto the quadrilateral `p0 p1 p2 p3` (corner order as in
`dstRect`): the unit-square construction rescaled by `w`, `h`. -/
def heckbert (w h : α) (p0 p1 p2 p3 : Pt α) : ℕ → α := fun j =>
  [(p1.x - p0.x + hkG p0 p1 p2 p3 * p1.x) / w,
   (p3.x - p0.x + hkH p0 p1 p2 p3 * p3.x) / h, p0.x,
   (p1.y - p0.y + hkG p0 p1 p2 p3 * p1.y) / w,
   (p3.y - p0.y + hkH p0 p1 p2 p3 * p3.y) / h, p0.y,
   hkG p0 p1 p2 p3 / w, hkH p0 p1 p2 p3 / h].getD j 0

theorem hkD_eq_neg_cross (p1 p2 p3 : Pt α) : hkD p1 p2 p3 = -cross2 p1 p2 p3 := by
  unfold hkD cross2
  ring

set_option maxHeartbeats 2000000 in
theorem heckbert_solves (W H : ℕ) (hW : 0 < W) (hH : 0 < H) (p0 p1 p2 p3 : Pt α)
    (hD : hkD p1 p2 p3 ≠ 0) :
    ∀ i < 8, (∑ j ∈ Finset.range 8,
        dltA (dstRect W H) [p0, p1, p2, p3] i j *
          heckbert (W : α) (H : α) p0 p1 p2 p3 j) =
      -dltA (dstRect W H) [p0, p1, p2, p3] i 8 := by
  have hWa : (W : α) ≠ 0 := Nat.cast_ne_zero.mpr (by omega)
  have hHa : (H : α) ≠ 0 := Nat.cast_ne_zero.mpr (by omega)
  rw [show hkD p1 p2 p3 =
    (p1.x - p2.x) * (p3.y - p2.y) - (p3.x - p2.x) * (p1.y - p2.y) from rfl] at hD
  intro i hi
  interval_cases i
  all_goals simp only [dltA, dstRect, heckbert, Finset.sum_range_succ,
    Finset.sum_range_zero, List.getD, List.getD_cons_zero,
    List.getD_cons_succ, List.get?, Nat.reduceDiv, Nat.reduceMod]
  all_goals try norm_num
  all_goals try field_simp [hkG, hkH, hkD]
  all_goals try ring

set_option maxHeartbeats 1000000 in
theorem dlt_kernel (W H : ℕ) (hW : 0 < W) (hH : 0 < H) (p0 p1 p2 p3 : Pt α)
    (hc : cross2 p1 p2 p3 ≠ 0) (u : ℕ → α)
    (hu : ∀ i < 8, (∑ j ∈ Finset.range 8,
      dltA (dstRect W H) [p0, p1, p2, p3] i j * u j) = 0) :
    ∀ j < 8, u j = 0 := by
  have hWa : (W : α) ≠ 0 := Nat.cast_ne_zero.mpr (by omega)
  have hHa : (H : α) ≠ 0 := Nat.cast_ne_zero.mpr (by omega)
  have e0 := hu 0 (by norm_num)
  have e1 := hu 1 (by norm_num)
  have e2 := hu 2 (by norm_num)
  have e3 := hu 3 (by norm_num)
  have e4 := hu 4 (by norm_num)
  have e5 := hu 5 (by norm_num)
  have e6 := hu 6 (by norm_num)
  have e7 := hu 7 (by norm_num)
  simp only [dltA, dstRect, Finset.sum_range_succ, Finset.sum_range_zero,
    List.getD, List.getD_cons_zero, List.getD_cons_succ, List.get?,
    Nat.reduceDiv, Nat.reduceMod] at e0 e1 e2 e3 e4 e5 e6 e7
  norm_num at e0 e1 e2 e3 e4 e5 e6 e7
  have h2 : u 2 = 0 := e0
  have h5 : u 5 = 0 := e1
  have hA : (W : α) * ((p2.x - p1.x) * u 6) + (H : α) * ((p2.x - p3.x) * u 7) = 0 := by
    linear_combination e4 - e2 - e6 - h2
  have hB : (W : α) * ((p2.y - p1.y) * u 6) + (H : α) * ((p2.y - p3.y) * u 7) = 0 := by
    linear_combination e5 - e3 - e7 - h5
  have h6 : u 6 = 0 := by
    apply mul_left_cancel₀ (mul_ne_zero hWa hc)
    show (W : α) * cross2 p1 p2 p3 * u 6 = (W : α) * cross2 p1 p2 p3 * 0
    unfold cross2
    linear_combination (-(p2.y - p3.y)) * hA + (p2.x - p3.x) * hB
  have h7 : u 7 = 0 := by
    apply mul_left_cancel₀ (mul_ne_zero hHa hc)
    show (H : α) * cross2 p1 p2 p3 * u 7 = (H : α) * cross2 p1 p2 p3 * 0
    unfold cross2
    linear_combination (p2.y - p1.y) * hA - (p2.x - p1.x) * hB
  have h0 : u 0 = 0 := by
    apply mul_left_cancel₀ hWa
    show (W : α) * u 0 = (W : α) * 0
    linear_combination -e2 - h2 + ((W : α) * p1.x) * h6
  have h3 : u 3 = 0 := by
    apply mul_left_cancel₀ hWa
    show (W : α) * u 3 = (W : α) * 0
    linear_combination -e3 - h5 + ((W : α) * p1.y) * h6
  have h1 : u 1 = 0 := by
    apply mul_left_cancel₀ hHa
    show (H : α) * u 1 = (H : α) * 0
    linear_combination -e6 - h2 + ((H : α) * p3.x) * h7
  have h4 : u 4 = 0 := by
    apply mul_left_cancel₀ hHa
    show (H : α) * u 4 = (H : α) * 0
    linear_combination -e7 - h5 + ((H : α) * p3.y) * h7
  intro j hj
  interval_cases j <;> assumption

theorem hkey1 (p0 p1 p2 p3 : Pt α) (hD : hkD p1 p2 p3 ≠ 0) :
    (hkG p0 p1 p2 p3 + 1) * hkD p1 p2 p3 = -cross2 p0 p2 p3 := by
  unfold hkG
  rw [add_mul, div_mul_cancel₀ _ hD]
  unfold hkD cross2
  ring

theorem hkey2 (p0 p1 p2 p3 : Pt α) (hD : hkD p1 p2 p3 ≠ 0) :
    (hkG p0 p1 p2 p3 + hkH p0 p1 p2 p3 + 1) * hkD p1 p2 p3 = -cross2 p0 p1 p3 := by
  unfold hkG hkH
  rw [add_mul, add_mul, div_mul_cancel₀ _ hD, div_mul_cancel₀ _ hD]
  unfold hkD cross2
  ring

theorem hkey3 (p0 p1 p2 p3 : Pt α) (hD : hkD p1 p2 p3 ≠ 0) :
    (hkH p0 p1 p2 p3 + 1) * hkD p1 p2 p3 = -cross2 p0 p1 p2 := by
  unfold hkH
  rw [add_mul, div_mul_cancel₀ _ hD]
  unfold hkD cross2
  ring

/-- Application of a solved 3×3 homography (stored row-major as a
9-element list) to a point — the same `(H[0]x+H[1]y+H[2])/w`,
`(H[3]x+H[4]y+H[5])/w`, `w = H[6]x+H[7]y+H[8]` formulas used by
`perspectiveTransform`; a vanishing denominator yields `(0,0)` (the JS
code would produce non-finite coordinates there). -/
def applyH (Hm : List α) (p : Pt α) : Pt α :=
  let w := Hm.getD 6 0 * p.x + Hm.getD 7 0 * p.y + Hm.getD 8 0
  if w = 0 then ⟨0, 0⟩
  else ⟨(Hm.getD 0 0 * p.x + Hm.getD 1 0 * p.y + Hm.getD 2 0) / w,
        (Hm.getD 3 0 * p.x + Hm.getD 4 0 * p.y + Hm.getD 5 0) / w⟩

set_option maxHeartbeats 1000000 in
/-- C7: for a convex quadrilateral in general position, solving the
homography from the four correspondences of the canonical rectangle
`(0,0),(W,0),(W,H),(0,H)` to the quadrilateral and applying the solved
3×3 matrix to the rectangle's corners reproduces the quadrilateral's
corners exactly (the arithmetic is exact, so the 1e-6 relative
tolerance of the spec's float formulation is met with room to spare). -/
theorem C7_theorem (W H : ℕ) (hW : 0 < W) (hH : 0 < H) (p0 p1 p2 p3 : Pt α)
    (hcv : ConvexQuad p0 p1 p2 p3) :
    applyH (computeHomography (dstRect W H) [p0, p1, p2, p3]) ⟨0, 0⟩ = p0 ∧
    applyH (computeHomography (dstRect W H) [p0, p1, p2, p3]) ⟨(W : α), 0⟩ = p1 ∧
    applyH (computeHomography (dstRect W H) [p0, p1, p2, p3]) ⟨(W : α), (H : α)⟩ = p2 ∧
    applyH (computeHomography (dstRect W H) [p0, p1, p2, p3]) ⟨0, (H : α)⟩ = p3 := by
  have hcyc1 : cross2 p2 p3 p0 = cross2 p0 p2 p3 := by
    unfold cross2
    ring
  have hcyc2 : cross2 p3 p0 p1 = cross2 p0 p1 p3 := by
    unfold cross2
    ring
  have hc123 : cross2 p1 p2 p3 ≠ 0 := by
    rcases hcv with ⟨_, h, _, _⟩ | ⟨_, h, _, _⟩
    exacts [ne_of_gt h, ne_of_lt h]
  have hc023 : cross2 p0 p2 p3 ≠ 0 := by
    rcases hcv with ⟨_, _, h, _⟩ | ⟨_, _, h, _⟩
    · exact hcyc1 ▸ ne_of_gt h
    · exact hcyc1 ▸ ne_of_lt h
  have hc013 : cross2 p0 p1 p3 ≠ 0 := by
    rcases hcv with ⟨_, _, _, h⟩ | ⟨_, _, _, h⟩
    · exact hcyc2 ▸ ne_of_gt h
    · exact hcyc2 ▸ ne_of_lt h
  have hc012 : cross2 p0 p1 p2 ≠ 0 := by
    rcases hcv with ⟨h, _, _, _⟩ | ⟨h, _, _, _⟩
    exacts [ne_of_gt h, ne_of_lt h]
  have hwa : (W : α) ≠ 0 := Nat.cast_ne_zero.mpr (by omega)
  have hha : (H : α) ≠ 0 := Nat.cast_ne_zero.mpr (by omega)
  have hD : hkD p1 p2 p3 ≠ 0 := by
    rw [hkD_eq_neg_cross]
    exact neg_ne_zero.mpr hc123
  have hsol8 := heckbert_solves W H hW hH p0 p1 p2 p3 hD
  have hx : ∀ j, j < 8 →
      (computeHomography (dstRect W H) [p0, p1, p2, p3]).getD j 0 =
        heckbert (W : α) (H : α) p0 p1 p2 p3 j :=
    fun j hj => solveHomography_correct (dltA (dstRect W H) [p0, p1, p2, p3])
      (heckbert (W : α) (H : α) p0 p1 p2 p3) hsol8
      (dlt_kernel W H hW hH p0 p1 p2 p3 hc123) j hj
  set f := heckbert (W : α) (H : α) p0 p1 p2 p3 with hf
  have k0 := hx 0 (by norm_num)
  have k1 := hx 1 (by norm_num)
  have k2 := hx 2 (by norm_num)
  have k3 := hx 3 (by norm_num)
  have k4 := hx 4 (by norm_num)
  have k5 := hx 5 (by norm_num)
  have k6 := hx 6 (by norm_num)
  have k7 := hx 7 (by norm_num)
  have k8 : (computeHomography (dstRect W H) [p0, p1, p2, p3]).getD 8 0 = 1 := rfl
  have e0 := hsol8 0 (by norm_num)
  have e1 := hsol8 1 (by norm_num)
  have e2 := hsol8 2 (by norm_num)
  have e3 := hsol8 3 (by norm_num)
  have e4 := hsol8 4 (by norm_num)
  have e5 := hsol8 5 (by norm_num)
  have e6 := hsol8 6 (by norm_num)
  have e7 := hsol8 7 (by norm_num)
  simp only [dltA, dstRect, Finset.sum_range_succ, Finset.sum_range_zero,
    List.getD, List.getD_cons_zero, List.getD_cons_succ, List.get?,
    Nat.reduceDiv, Nat.reduceMod] at e0 e1 e2 e3 e4 e5 e6 e7
  norm_num at e0 e1 e2 e3 e4 e5 e6 e7
  have hb6W : f 6 * (W : α) = hkG p0 p1 p2 p3 := by
    rw [hf]
    exact div_mul_cancel₀ _ hwa
  have hb7H : f 7 * (H : α) = hkH p0 p1 p2 p3 := by
    rw [hf]
    exact div_mul_cancel₀ _ hha
  have hg1 : hkG p0 p1 p2 p3 + 1 ≠ 0 := by
    intro h0
    apply hc023
    have hk := hkey1 p0 p1 p2 p3 hD
    rw [h0, zero_mul] at hk
    linarith
  have hg2 : hkG p0 p1 p2 p3 + hkH p0 p1 p2 p3 + 1 ≠ 0 := by
    intro h0
    apply hc013
    have hk := hkey2 p0 p1 p2 p3 hD
    rw [h0, zero_mul] at hk
    linarith
  have hg3 : hkH p0 p1 p2 p3 + 1 ≠ 0 := by
    intro h0
    apply hc012
    have hk := hkey3 p0 p1 p2 p3 hD
    rw [h0, zero_mul] at hk
    linarith
  refine ⟨?_, ?_, ?_, ?_⟩
  · have wne : f 6 * (0 : α) + f 7 * (0 : α) + 1 ≠ 0 := by
      simp
    simp only [applyH, k0, k1, k2, k3, k4, k5, k6, k7, k8]
    rw [if_neg wne]
    refine pt_ext ?_ ?_
    · show (f 0 * (0 : α) + f 1 * (0 : α) + f 2) /
        (f 6 * (0 : α) + f 7 * (0 : α) + 1) = p0.x
      rw [div_eq_iff wne]
      linear_combination e0
    · show (f 3 * (0 : α) + f 4 * (0 : α) + f 5) /
        (f 6 * (0 : α) + f 7 * (0 : α) + 1) = p0.y
      rw [div_eq_iff wne]
      linear_combination e1
  · have wne : f 6 * (W : α) + f 7 * (0 : α) + 1 ≠ 0 := by
      intro h0
      apply hg1
      rw [← hb6W]
      linear_combination h0
    simp only [applyH, k0, k1, k2, k3, k4, k5, k6, k7, k8]
    rw [if_neg wne]
    refine pt_ext ?_ ?_
    · show (f 0 * (W : α) + f 1 * (0 : α) + f 2) /
        (f 6 * (W : α) + f 7 * (0 : α) + 1) = p1.x
      rw [div_eq_iff wne]
      linear_combination -e2
    · show (f 3 * (W : α) + f 4 * (0 : α) + f 5) /
        (f 6 * (W : α) + f 7 * (0 : α) + 1) = p1.y
      rw [div_eq_iff wne]
      linear_combination -e3
  · have wne : f 6 * (W : α) + f 7 * (H : α) + 1 ≠ 0 := by
      intro h0
      apply hg2
      rw [← hb6W, ← hb7H]
      linear_combination h0
    simp only [applyH, k0, k1, k2, k3, k4, k5, k6, k7, k8]
    rw [if_neg wne]
    refine pt_ext ?_ ?_
    · show (f 0 * (W : α) + f 1 * (H : α) + f 2) /
        (f 6 * (W : α) + f 7 * (H : α) + 1) = p2.x
      rw [div_eq_iff wne]
      linear_combination -e4
    · show (f 3 * (W : α) + f 4 * (H : α) + f 5) /
        (f 6 * (W : α) + f 7 * (H : α) + 1) = p2.y
      rw [div_eq_iff wne]
      linear_combination -e5
  · have wne : f 6 * (0 : α) + f 7 * (H : α) + 1 ≠ 0 := by
      intro h0
      apply hg3
      rw [← hb7H]
      linear_combination h0
    simp only [applyH, k0, k1, k2, k3, k4, k5, k6, k7, k8]
    rw [if_neg wne]
    refine pt_ext ?_ ?_
    · show (f 0 * (0 : α) + f 1 * (H : α) + f 2) /
        (f 6 * (0 : α) + f 7 * (H : α) + 1) = p3.x
      rw [div_eq_iff wne]
      linear_combination -e6
    · show (f 3 * (0 : α) + f 4 * (H : α) + f 5) /
        (f 6 * (0 : α) + f 7 * (H : α) + 1) = p3.y
      rw [div_eq_iff wne]
      linear_combination -e7

/-- Witness for C7: the rectangle `[0,4]×[0,3]` mapped to the convex
quadrilateral `(1,2),(7,1),(8,6),(2,5)`; the solved homography sends
rectangle corner `(4,0)` exactly to quadrilateral corner `(7,1)`. -/
theorem C7_witness :
    (0 < 4 ∧ 0 < 3 ∧ ConvexQuad (⟨1, 2⟩ : Pt ℚ) ⟨7, 1⟩ ⟨8, 6⟩ ⟨2, 5⟩) ∧
    applyH (computeHomography (dstRect 4 3) [⟨1, 2⟩, ⟨7, 1⟩, ⟨8, 6⟩, ⟨2, 5⟩])
      ⟨((4 : ℕ) : ℚ), 0⟩ = ⟨7, 1⟩ := by
  have hcv : ConvexQuad (⟨1, 2⟩ : Pt ℚ) ⟨7, 1⟩ ⟨8, 6⟩ ⟨2, 5⟩ := by
    unfold ConvexQuad cross2
    norm_num
  exact ⟨⟨by norm_num, by norm_num, hcv⟩,
    (C7_theorem 4 3 (by norm_num) (by norm_num) _ _ _ _ hcv).2.1⟩

/-- Solving the homography from the destination rectangle to itself
yields the identity coefficients `(1,0,0, 0,1,0, 0,0)` (ninth entry 1). -/
theorem computeHomography_id (W H : ℕ) (hW : 0 < W) (hH : 0 < H) :
    ∀ j, j < 8 → (computeHomography (dstRect W H) (dstRect W H) : List α).getD j 0 =
      [(1 : α), 0, 0, 0, 1, 0, 0, 0].getD j 0 := by
  have hc : cross2 (⟨(W : α), 0⟩ : Pt α) ⟨(W : α), (H : α)⟩ ⟨0, (H : α)⟩ ≠ 0 := by
    have hce : cross2 (⟨(W : α), 0⟩ : Pt α) ⟨(W : α), (H : α)⟩ ⟨0, (H : α)⟩ =
        (W : α) * (H : α) := by
      unfold cross2
      ring
    rw [hce]
    exact mul_ne_zero (Nat.cast_ne_zero.mpr (by omega)) (Nat.cast_ne_zero.mpr (by omega))
  have hsol : ∀ i < 8, (∑ j ∈ Finset.range 8,
      dltA (dstRect W H) (dstRect W H) i j *
        [(1 : α), 0, 0, 0, 1, 0, 0, 0].getD j 0) =
      -dltA (dstRect W H) (dstRect W H) i 8 := by
    intro i hi
    interval_cases i
    all_goals simp only [dltA, dstRect, Finset.sum_range_succ,
      Finset.sum_range_zero, List.getD, List.getD_cons_zero,
      List.getD_cons_succ, List.get?, Nat.reduceDiv, Nat.reduceMod]
    all_goals norm_num
  have hker : ∀ u : ℕ → α,
      (∀ i < 8, (∑ j ∈ Finset.range 8,
        dltA (dstRect W H) (dstRect W H) i j * u j) = 0) → ∀ j < 8, u j = 0 :=
    fun u hu => dlt_kernel W H hW hH ⟨0, 0⟩ ⟨(W : α), 0⟩ ⟨(W : α), (H : α)⟩
      ⟨0, (H : α)⟩ hc u hu
  exact fun j hj => solveHomography_correct (dltA (dstRect W H) (dstRect W H))
    ([(1 : α), 0, 0, 0, 1, 0, 0, 0].getD · 0) hsol hker j hj

/-- Resampling through the identity quadrilateral: interior destination
pixels (both successors strictly inside) reproduce the source exactly,
and the last row and column are left at 0 because their 2×2 bilinear
neighbourhood spills past the raster. -/
theorem perspT_identity (img : ImgData α) (hW : 0 < img.width) (hH : 0 < img.height)
    (hval : ∀ i, u8Store (img.data i) = img.data i)
    (x y c : ℕ) (hx : x < img.width) (hy : y < img.height) (hc : c < 4) :
    perspectiveTransform img (dstRect img.width img.height) img.width img.height
        ((y * img.width + x) * 4 + c) =
      if x + 1 < img.width ∧ y + 1 < img.height
      then img.data ((y * img.width + x) * 4 + c) else 0 := by
  have hid := computeHomography_id (α := α) img.width img.height hW hH
  set Hm := (computeHomography (dstRect img.width img.height)
    (dstRect img.width img.height) : List α) with hHm
  have hid8 : Hm.getD 8 0 = 1 := rfl
  have hw1 : wOf Hm x y = 1 := by
    unfold wOf
    rw [hid 6 (by norm_num), hid 7 (by norm_num), hid8]
    simp
  have hsx : srcXof Hm x y = (x : α) := by
    unfold srcXof
    rw [hw1, hid 0 (by norm_num), hid 1 (by norm_num), hid 2 (by norm_num)]
    simp
  have hsy : srcYof Hm x y = (y : α) := by
    unfold srcYof
    rw [hw1, hid 3 (by norm_num), hid 4 (by norm_num), hid 5 (by norm_num)]
    simp
  have hfx : ⌊srcXof Hm x y⌋ = (x : ℤ) := by
    rw [hsx]
    exact Int.floor_natCast x
  have hfy : ⌊srcYof Hm x y⌋ = (y : ℤ) := by
    rw [hsy]
    exact Int.floor_natCast y
  by_cases hin : x + 1 < img.width ∧ y + 1 < img.height
  · have hguard : perspGuard img Hm x y := by
      refine ⟨by rw [hw1]; norm_num, ?_, ?_, ?_, ?_⟩
      · rw [hfx]
        exact Int.natCast_nonneg x
      · rw [hfx]
        exact_mod_cast hin.1
      · rw [hfy]
        exact Int.natCast_nonneg y
      · rw [hfy]
        exact_mod_cast hin.2
    rw [if_pos hin]
    rw [perspectiveTransform_pixel img _ img.width img.height x y c hx hy hc,
      ← hHm, perspPixel_some img Hm x y c hc hguard]
    have hzx : srcXof Hm x y - ((⌊srcXof Hm x y⌋ : ℤ) : α) = 0 := by
      rw [hsx, Int.floor_natCast]
      simp
    have hzy : srcYof Hm x y - ((⌊srcYof Hm x y⌋ : ℤ) : α) = 0 := by
      rw [hsy, Int.floor_natCast]
      simp
    rw [hzx, hzy, hfx, hfy]
    simp only [Option.elim_some, mul_zero, zero_mul, mul_one, sub_zero,
      add_zero, Int.toNat_natCast]
    exact hval _
  · rw [if_neg hin]
    rw [perspectiveTransform_pixel img _ img.width img.height x y c hx hy hc,
      ← hHm, perspPixel_none img Hm x y c]
    · rfl
    · intro ⟨hw', h1, h2, h3, h4⟩
      rw [hfx] at h2
      rw [hfy] at h4
      have hx2 : x + 1 < img.width := by exact_mod_cast h2
      have hy2 : y + 1 < img.height := by exact_mod_cast h4
      exact hin ⟨hx2, hy2⟩

/-- C6 (corrected): resampling a `W×H` raster through the identity
quadrilateral `{(0,0),(W,0),(W,H),(0,H)}` into a `W×H` output reproduces
the input exactly at every pixel whose right and bottom neighbours exist
(`x+1 < W` and `y+1 < H`, given byte-valued source data), but leaves the
last row and the last column at 0 — not within ±1 of the input there. -/
theorem C6_theorem (img : ImgData α) (hW : 0 < img.width) (hH : 0 < img.height)
    (hval : ∀ i, u8Store (img.data i) = img.data i)
    (x y c : ℕ) (hx : x < img.width) (hy : y < img.height) (hc : c < 4) :
    perspectiveTransform img (dstRect img.width img.height) img.width img.height
        ((y * img.width + x) * 4 + c) =
      if x + 1 < img.width ∧ y + 1 < img.height
      then img.data ((y * img.width + x) * 4 + c) else 0 :=
  perspT_identity img hW hH hval x y c hx hy hc

/-- Counterexample to C6 as stated: the bottom-right pixel of a 2×2
all-255 raster resampled through the identity quadrilateral comes out 0,
which is not within ±1 of the source value 255. -/
theorem C6_counterexample :
    perspectiveTransform (⟨2, 2, fun _ => (255 : ℚ)⟩ : ImgData ℚ)
        (dstRect 2 2) 2 2 ((1 * 2 + 1) * 4 + 0) = 0 ∧
    ¬ |(0 : ℚ) - 255| ≤ 1 := by
  constructor
  · have h255 : u8Store (255 : ℚ) = 255 := by
      have h := u8Store_intCast (α := ℚ) 255 (le_refl 255)
      norm_num at h
      exact h
    have h := perspT_identity (⟨2, 2, fun _ => (255 : ℚ)⟩ : ImgData ℚ)
      (by norm_num) (by norm_num) (fun i => h255) 1 1 0
      (by norm_num) (by norm_num) (by norm_num)
    rw [if_neg (by norm_num)] at h
    exact h
  · norm_num

/-- Witness for C6: a 2×2 constant-7 raster through the identity
quadrilateral reproduces pixel `(0,0)` exactly. -/
theorem C6_witness :
    (0 < 2 ∧ u8Store (7 : ℚ) = 7) ∧
    perspectiveTransform (⟨2, 2, fun _ => (7 : ℚ)⟩ : ImgData ℚ)
        (dstRect 2 2) 2 2 ((0 * 2 + 0) * 4 + 0) =
      (if 0 + 1 < 2 ∧ 0 + 1 < 2 then (7 : ℚ) else 0) := by
  have h7 : u8Store (7 : ℚ) = 7 := by
    have h := u8Store_intCast (α := ℚ) 7 (by norm_num)
    norm_num at h
    exact h
  exact ⟨⟨by norm_num, h7⟩,
    C6_theorem (⟨2, 2, fun _ => (7 : ℚ)⟩ : ImgData ℚ) (by norm_num) (by norm_num)
      (fun i => h7) 0 0 0 (by norm_num) (by norm_num) (by norm_num)⟩

end Model

end PageScanner
